import Mathlib

/-!
Verification development for the Beta6 student-roster front end.

The subject is the student identifier resolver of
`src/pages/StudentProfile.tsx` (the `fetchData` effect and
`getFullDisplayId`) together with the data-access helpers from
`src/services/store.ts` that it consumes (`getStudents`, `getStudent`,
`getClass`, `saveStudent`, `isValidUUID`).

Modelling conventions:
* JavaScript strings are modelled as `List Char` (sequences of code
  points).
* The data store is passed explicitly: the class directory as a
  `List ClassGroup` and the global student table as a `List Student`.
* JavaScript numbers that the resolver manipulates are exact integers in
  every reachable state (`parseInt` of a string shorter than 10
  characters, integer `unique_number` columns), so they are modelled as
  `Int`.
* `toLowerCase` is modelled by `Char.toLower`, which lowers exactly the
  ASCII uppercase letters — the only characters any comparison of the
  resolver is sensitive to (its regexes and prefix keys are ASCII).
-/

namespace Beta6

/-- JavaScript `s.toLowerCase()` on the ASCII range. -/
def lowerStr (s : List Char) : List Char := s.map Char.toLower

/-- `name.replace(/[^a-zA-Z0-9]/g, '')` — the regex keeps exactly the
ASCII alphanumerics, which is the `Char.isAlphanum` test. Used with the
original casing by `getFullDisplayId`. -/
def rawCleanName (s : List Char) : List Char := s.filter Char.isAlphanum

/-- `cls.name.replace(/[^a-zA-Z0-9]/g, '').toLowerCase()` — the clean
name a class is matched under. -/
def cleanName (s : List Char) : List Char := lowerStr (rawCleanName s)

/-- The JavaScript WhiteSpace ∪ LineTerminator set, shared by
`String.prototype.trim` and the `Number` conversion. -/
def jsWhiteChars : List Char :=
  ['\t', '\n', Char.ofNat 0x0b, Char.ofNat 0x0c, '\r', ' ',
   Char.ofNat 0xa0, Char.ofNat 0x1680,
   Char.ofNat 0x2000, Char.ofNat 0x2001, Char.ofNat 0x2002,
   Char.ofNat 0x2003, Char.ofNat 0x2004, Char.ofNat 0x2005,
   Char.ofNat 0x2006, Char.ofNat 0x2007, Char.ofNat 0x2008,
   Char.ofNat 0x2009, Char.ofNat 0x200a, Char.ofNat 0x2028,
   Char.ofNat 0x2029, Char.ofNat 0x202f, Char.ofNat 0x205f,
   Char.ofNat 0x3000, Char.ofNat 0xfeff]

/-- Membership in the JavaScript whitespace set. -/
def jsWhite (c : Char) : Bool := jsWhiteChars.contains c

/-- `remainder.trim()`. -/
def jsTrim (s : List Char) : List Char :=
  ((s.dropWhile jsWhite).reverse.dropWhile jsWhite).reverse

/-- Strip one optional leading sign (used by the decimal-literal and
exponent grammar of `Number`, and by `parseInt`). -/
def stripSign1 (s : List Char) : List Char :=
  if s.head? == some '+' || s.head? == some '-' then s.tail else s

/-- The characters of the literal `Infinity` (case-sensitive in the
`Number` grammar). -/
def infinityChars : List Char := ['I', 'n', 'f', 'i', 'n', 'i', 't', 'y']

/-- Optional exponent part of a string numeric literal:
empty, or `(e|E) (+|-)? DecimalDigits`. -/
def isExpOpt (s : List Char) : Bool :=
  s.isEmpty ||
    ((s.head? == some 'e' || s.head? == some 'E') &&
      (let r' := stripSign1 s.tail
       !r'.isEmpty && r'.all Char.isDigit))

/-- Unsigned decimal mantissa with optional fraction and exponent:
`Digits [. Digits?] Exp?  |  . Digits Exp?`. -/
def isMantissaExp (s : List Char) : Bool :=
  let d1 := s.takeWhile Char.isDigit
  let r1 := s.dropWhile Char.isDigit
  if r1.head? == some '.' then
    let d2 := r1.tail.takeWhile Char.isDigit
    let r3 := r1.tail.dropWhile Char.isDigit
    (!d1.isEmpty || !d2.isEmpty) && isExpOpt r3
  else !d1.isEmpty && isExpOpt r1

/-- Signed decimal literal or signed `Infinity`. -/
def isStrDecimal (s : List Char) : Bool :=
  let s' := stripSign1 s
  s' == infinityChars || isMantissaExp s'

/-- Hexadecimal digit in either case (`[0-9a-fA-F]`). -/
def isHexDigit (c : Char) : Bool :=
  c.isDigit || ('a' ≤ c && c ≤ 'f') || ('A' ≤ c && c ≤ 'F')

/-- Octal digit. -/
def isOctDigit (c : Char) : Bool := '0' ≤ c && c ≤ '7'

/-- Binary digit. -/
def isBinDigit (c : Char) : Bool := c == '0' || c == '1'

/-- An unsigned radix-prefixed literal `0x… / 0o… / 0b…` (either case of
the marker), with at least one digit after the marker. -/
def isRadixLiteral (m M : Char) (d : Char → Bool) (s : List Char) : Bool :=
  s.head? == some '0' &&
    (s.tail.head? == some m || s.tail.head? == some M) &&
    (!s.tail.tail.isEmpty && s.tail.tail.all d)

/-- `!isNaN(Number(s))` for an already-trimmed string `s`: the empty
string converts to `0`, otherwise `s` must match the StrNumericLiteral
grammar (signed decimal with optional fraction/exponent, signed
`Infinity`, or an unsigned `0x`/`0o`/`0b` literal). -/
def jsNumberNotNaN (s : List Char) : Bool :=
  s.isEmpty || isStrDecimal s ||
    isRadixLiteral 'x' 'X' isHexDigit s ||
    isRadixLiteral 'o' 'O' isOctDigit s ||
    isRadixLiteral 'b' 'B' isBinDigit s

/-- Value of a decimal digit character. -/
def digitVal (c : Char) : Nat := c.toNat - 48

/-- Value of a hexadecimal digit character (either case). -/
def hexDigitVal (c : Char) : Nat :=
  if c.isDigit then c.toNat - 48
  else if 'a' ≤ c && c ≤ 'f' then c.toNat - 87
  else c.toNat - 55

/-- Big-endian value of a decimal digit string. -/
def decVal (ds : List Char) : Nat :=
  ds.foldl (fun a c => 10 * a + digitVal c) 0

/-- Big-endian value of a hexadecimal digit string. -/
def hexVal (ds : List Char) : Nat :=
  ds.foldl (fun a c => 16 * a + hexDigitVal c) 0

/-- Unsigned core of `parseInt(s)` (no radix argument): detect a
`0x`/`0X` prefix (hexadecimal) and otherwise read base 10; the value is
the longest prefix of digits, `NaN` (here `none`) when that prefix is
empty. Exact for the inputs the resolver feeds it (shorter than 10
characters). -/
def jsParseIntCore (s2 : List Char) : Option Nat :=
  if s2.head? == some '0' &&
      (s2.tail.head? == some 'x' || s2.tail.head? == some 'X') then
    let ds := s2.tail.tail.takeWhile isHexDigit
    if ds.isEmpty then none else some (hexVal ds)
  else
    let ds := s2.takeWhile Char.isDigit
    if ds.isEmpty then none else some (decVal ds)

/-- Continuation of `parseInt` after whitespace stripping: one optional
sign, then the unsigned core. -/
def jsParseInt (s : List Char) : Option Int :=
  let s1 := s.dropWhile jsWhite
  let neg : Bool := s1.head? == some '-'
  let s2 := if s1.head? == some '-' || s1.head? == some '+' then s1.tail else s1
  (jsParseIntCore s2).map (fun v => if neg then -(v : Int) else (v : Int))

/-- Character admissible at position `i` of a canonical UUID: a hyphen
at positions 8, 13, 18, 23 and a hexadecimal digit elsewhere. -/
def uuidCharOk (i : Nat) (c : Char) : Bool :=
  if i == 8 || i == 13 || i == 18 || i == 23 then c == '-' else isHexDigit c

/-- `isValidUUID` of `store.ts`: the case-insensitive regex
`^[0-9a-f]{8}-[0-9a-f]{4}-[0-9a-f]{4}-[0-9a-f]{4}-[0-9a-f]{12}$`,
stated positionally (36 characters, hyphens at 8/13/18/23, hexadecimal
digits elsewhere). -/
def isValidUUID (s : List Char) : Bool :=
  s.length == 36 && s.enum.all (fun p => uuidCharOk p.1 p.2)

/-- A class row after `mapClassFromDB`. -/
structure ClassGroup where
  id : List Char
  name : List Char
  description : List Char := []
  deriving DecidableEq, Repr

/-- A student row after `mapStudentFromDB` (`uniqueId` is absent when
`unique_number` is null/0, `classId` when `class_id` is null). -/
structure Student where
  id : List Char
  classId : Option (List Char) := none
  name : List Char := []
  uniqueId : Option Int := none
  note1 : Int := 0
  note2 : Int := 0
  note3 : Int := 0
  deriving DecidableEq, Repr

/-- Insert `x` after every element `y` of an already-sorted accumulator
with `le y x`; since ties satisfy `le y x`, an element inserted later
lands after its ties, which makes the fold below a stable sort. -/
def jsInsert {α : Type} (le : α → α → Bool) (x : α) : List α → List α
  | [] => [x]
  | y :: ys => if le y x then y :: jsInsert le x ys else x :: y :: ys

/-- Stable sort: the model of `Array.prototype.sort` (stable per
ES2019) under a consistent comparator `cmp`, given as the boolean test
`le a b ↔ cmp(a, b) ≤ 0`. A stable sort of a list under a total
transitive `le` is unique, so any faithful model coincides with this
one. -/
def jsSort {α : Type} (le : α → α → Bool) (l : List α) : List α :=
  l.foldl (fun acc x => jsInsert le x acc) []

/-- Code-point collation: the model of `localeCompare` ties in
`getStudents` and of the server-side `order('name')`. -/
def nameLe : List Char → List Char → Bool
  | [], _ => true
  | _ :: _, [] => false
  | c :: cs, d :: ds =>
      if c.toNat = d.toNat then nameLe cs ds else decide (c.toNat < d.toNat)

/-- `Number.MAX_SAFE_INTEGER`. -/
def maxSafeInteger : Int := 9007199254740991

/-- `a.uniqueId ?? Number.MAX_SAFE_INTEGER` — the client sort key of
`getStudents`. -/
def sortKey (s : Student) : Int := s.uniqueId.getD maxSafeInteger

/-- The client-side comparator of `getStudents`,
`(a, b) => idA !== idB ? idA - idB : a.name.localeCompare(b.name)`,
as a total boolean `≤` test. -/
def studentLe (a b : Student) : Bool :=
  if sortKey a = sortKey b then nameLe a.name b.name
  else decide (sortKey a < sortKey b)

/-- `getStudents(classId)`: select the rows of the class (server-ordered
by name), then stable-sort client-side with `studentLe`. -/
def getStudents (db : List Student) (cid : List Char) : List Student :=
  jsSort studentLe
    (jsSort (fun a b => nameLe a.name b.name)
      (db.filter (fun s => s.classId == some cid)))

/-- `getStudent(id)` together with the number of queries it issues to
the data store: the UUID guard returns `null` before any query when the
argument is not in canonical UUID form. The id column holds UUIDs, whose
equality is case-insensitive on the hexadecimal digits. -/
def getStudentQueried (db : List Student) (id : List Char) :
    Option Student × Nat :=
  if isValidUUID id then
    (db.find? (fun s => lowerStr s.id == lowerStr id), 1)
  else (none, 0)

/-- `getStudent(id)`: the value component of `getStudentQueried`. -/
def getStudent (db : List Student) (id : List Char) : Option Student :=
  (getStudentQueried db id).1

/-- `getClass(id)`. -/
def getClass (classes : List ClassGroup) (cid : List Char) :
    Option ClassGroup :=
  classes.find? (fun c => c.id == cid)

/-- Guard of the numeric branch:
`!isNaN(Number(cleanRemainder)) && cleanRemainder.length > 0 &&
cleanRemainder.length < 10`. -/
def numericCond (r : List Char) : Bool :=
  jsNumberNotNaN r && decide (0 < r.length) && decide (r.length < 10)

/-- One iteration of the class loop of `fetchData`: prefix test against
the clean name, legacy underscore drop, trim, then the numeric branch
(per-class sequence-number search) followed by the UUID branch
(direct id lookup). Yields the student at which the loop would `break`,
or `none` when the iteration falls through. -/
def tryClassStudent (db : List Student) (token : List Char)
    (cls : ClassGroup) : Option Student :=
  let cn := cleanName cls.name
  if cn.isPrefixOf (lowerStr token) then
    let rem0 := token.drop cn.length
    let rem := if rem0.head? == some '_' then rem0.tail else rem0
    let r := jsTrim rem
    let numRes : Option Student :=
      if numericCond r then
        match jsParseInt r with
        | some n => (getStudents db cls.id).find? (fun s => s.uniqueId == some n)
        | none => none
      else none
    match numRes with
    | some s => some s
    | none => if isValidUUID r then getStudent db r else none
  else none

/-- On a `break`, the loop records the current class as `fetchedClass`
alongside the found student. -/
def tryClass (db : List Student) (token : List Char) (cls : ClassGroup) :
    Option (Student × ClassGroup) :=
  (tryClassStudent db token cls).map (fun s => (s, cls))

/-- `allClasses.sort((a, b) => b.name.length - a.name.length)`:
stable sort by descending raw name length. -/
def sortClasses (classes : List ClassGroup) : List ClassGroup :=
  jsSort (fun a b => decide (b.name.length ≤ a.name.length)) classes

/-- The whole resolution of `fetchData`: run the class loop over the
sorted directory, fall back to a direct `getStudent` on the entire
original token, and on the fallback path enrich a found student with
its own class for display. Returns the final
`(fetchedStudent, fetchedClass)` state. -/
def resolve (token : List Char) (classes : List ClassGroup)
    (db : List Student) : Option Student × Option ClassGroup :=
  match (sortClasses classes).findSome? (tryClass db token) with
  | some (s, c) => (some s, some c)
  | none =>
      match getStudent db token with
      | some s =>
          (some s,
           match s.classId with
           | some cid => getClass classes cid
           | none => none)
      | none => (none, none)

/-- Fuel-indexed big-endian decimal digit extraction (the fuel makes the
recursion structural; `n` itself is always enough fuel). -/
def natToCharsAux : Nat → Nat → List Char
  | 0, _ => []
  | f + 1, n =>
      if n = 0 then []
      else natToCharsAux f (n / 10) ++ [Char.ofNat (48 + n % 10)]

/-- Decimal digit characters of `n` (JavaScript number-to-string for the
integers in range). -/
def natToChars (n : Nat) : List Char :=
  if n = 0 then ['0'] else natToCharsAux n n

/-- Decimal rendering of an integer. -/
def intToChars (v : Int) : List Char :=
  if v < 0 then '-' :: natToChars v.natAbs else natToChars v.toNat

/-- `getFullDisplayId`: the raw-case clean class name concatenated with
`student.uniqueId || student.id` (`0` is falsy, so it falls back to the
raw id like a missing `uniqueId`). -/
def getFullDisplayId (student : Student) (classGroup : ClassGroup) :
    List Char :=
  rawCleanName classGroup.name ++
    (match student.uniqueId with
     | some v => if v = 0 then student.id else intToChars v
     | none => student.id)

/-- The auto-increment of `saveStudent`: over the rows of the class,
`reduce((max, curr) => { const num = Number(curr.unique_number) || 0;
return num > max ? num : max; }, 0) + 1`. -/
def saveStudentUniqueNumber (existing : List Student) : Int :=
  existing.foldl (fun m s =>
    let num := s.uniqueId.getD 0
    if num > m then num else m) 0 + 1

/-- Modelled from the spec: "the maximum uniqueId among the students
already recorded in that class (taking the maximum as 0 when no
existing student has one)" — the reference value claim C9 compares the
code's auto-increment against. -/
def specMaxUniqueId (existing : List Student) : Int :=
  match existing.filterMap (fun s => s.uniqueId) with
  | [] => 0
  | v :: vs => vs.foldl max v

/-- The ordering claim C10 describes: students with a `uniqueId` first,
ascending; students without one after them; ties within either group by
name comparison. -/
def claimStudentOrder (a b : Student) : Bool :=
  match a.uniqueId, b.uniqueId with
  | some x, some y => decide (x < y) || (decide (x = y) && nameLe a.name b.name)
  | some _, none => true
  | none, some _ => false
  | none, none => nameLe a.name b.name

/-- Shorthand for string literals as character lists. -/
def str (s : String) : List Char := s.toList

/-! ### Concrete scenarios used by the claim theorems -/

/-- Scenario for the C2 counterexample: a class "Grade" holding a
student whose `unique_number` column is `-5`. -/
def c2cls : ClassGroup := { id := str ("cg"), name := str ("Grade") }

/-- The student with the negative sequence number. -/
def c2stu : Student :=
  { id := str ("sn"), classId := some (str ("cg")),
    name := str ("N"), uniqueId := some (-5) }

/-- A class whose clean name is `grade1` but whose raw name has 10
characters. -/
def c1clsA : ClassGroup := { id := str ("ca"), name := str ("Grade----1") }

/-- A class whose clean name is `grade12` and whose raw name has 8
characters. -/
def c1clsB : ClassGroup := { id := str ("cb"), name := str ("Grade 12") }

/-- Sequence number 23 in `c1clsA`. -/
def c1sA : Student :=
  { id := str ("sa"), classId := some (str ("ca")),
    name := str ("A"), uniqueId := some 23 }

/-- Sequence number 3 in `c1clsB`. -/
def c1sB : Student :=
  { id := str ("sb"), classId := some (str ("cb")),
    name := str ("B"), uniqueId := some 3 }

/-- Class "Grade 1". -/
def c3cls1 : ClassGroup := { id := str ("c1"), name := str ("Grade 1") }

/-- Class "Grade 12". -/
def c3cls12 : ClassGroup := { id := str ("c12"), name := str ("Grade 12") }

/-- Sequence number 23 in "Grade 1". -/
def c3sA : Student :=
  { id := str ("ida"), classId := some (str ("c1")),
    name := str ("A"), uniqueId := some 23 }

/-- Sequence number 3 in "Grade 12". -/
def c3sB : Student :=
  { id := str ("idb"), classId := some (str ("c12")),
    name := str ("B"), uniqueId := some 3 }

/-- The single class of the C3 amended-claim witness. -/
def c3wcls : ClassGroup := { id := str ("c1"), name := str ("Grade 1") }

/-- The student of the C3 amended-claim witness. -/
def c3wst : Student :=
  { id := str ("ida"), classId := some (str ("c1")),
    name := str ("A"), uniqueId := some 23 }

/-- Class "Grade". -/
def c7G : ClassGroup := { id := str ("cg"), name := str ("Grade") }

/-- Class "Grade 1", whose clean name `grade1` is the matching prefix of
the counterexample token. -/
def c7G1 : ClassGroup := { id := str ("cg1"), name := str ("Grade 1") }

/-- Sequence number 12 in "Grade" (class "Grade 1" has no students). -/
def c7s : Student :=
  { id := str ("s12"), classId := some (str ("cg")),
    name := str ("Bob"), uniqueId := some 12 }

/-- The class of the C7 amended-claim witness. -/
def c7w1 : ClassGroup := { id := str ("cw"), name := str ("Grade 1") }

/-- Sequence number 2 in "Grade 1" for the C7 amended-claim witness. -/
def c7ws : Student :=
  { id := str ("sw"), classId := some (str ("cw")),
    name := str ("W"), uniqueId := some 2 }

/-- A student whose `uniqueId` equals the comparator's sentinel
`Number.MAX_SAFE_INTEGER`, with a late-sorting name. -/
def c10sA : Student :=
  { id := str ("x1"), classId := some (str ("k")),
    name := str ("zzz"), uniqueId := some maxSafeInteger }

/-- A student without a `uniqueId`, with an early-sorting name. -/
def c10sB : Student :=
  { id := str ("x2"), classId := some (str ("k")), name := str ("aaa") }

/-- Class "Grade 1" for the C1 amended-claim witness. -/
def c1w1 : ClassGroup := { id := str ("w1"), name := str ("Grade 1") }

/-- Class "Grade 12" for the C1 amended-claim witness. -/
def c1w2 : ClassGroup := { id := str ("w2"), name := str ("Grade 12") }

/-- Sequence number 3 in "Grade 12" for the C1 amended-claim witness. -/
def c1wS : Student :=
  { id := str ("ws"), classId := some (str ("w2")),
    name := str ("S"), uniqueId := some 3 }

/-- A UUID token, class directory and student table witnessing C5. -/
def c5tok : List Char := str ("123e4567-e89b-12d3-a456-426614174000")

/-- The class directory for the C5 witness. -/
def c5cls : ClassGroup := { id := str ("cg"), name := str ("Grade") }

/-- The student found by the C5 witness. -/
def c5stu : Student := { id := c5tok, classId := some (str ("cg")) }

/-- The token for the C6 witness: prefix-matches class "Grade" but the
remainder `ZZZ` fits neither branch, and the whole token is no UUID. -/
def c6tok : List Char := str ("GradeZZZ")

/-- The class directory for the C6 witness. -/
def c6cls : ClassGroup := { id := str ("cg"), name := str ("Grade") }

/-- The class roster for the C9 witness. -/
def c9stu : Student :=
  { id := str ("s1"), classId := some (str ("k")),
    name := str ("A"), uniqueId := some 2 }

/-- First student for the C10 amended-claim witness. -/
def c10w1 : Student :=
  { id := str ("y1"), classId := some (str ("k")),
    name := str ("b"), uniqueId := some 1 }

/-- Second student for the C10 amended-claim witness. -/
def c10w2 : Student :=
  { id := str ("y2"), classId := some (str ("k")), name := str ("a") }

/-- Two characters that differ only in (ASCII) case: they agree after
`toLowerCase`. -/
def charCaseEq (c d : Char) : Prop := Char.toLower c = Char.toLower d

/-- The class of the C4 witness. -/
def c4wcls : ClassGroup := { id := str ("cg"), name := str ("Grade") }

/-- Sequence number 1 in "Grade" for the C4 witness. -/
def c4wst : Student :=
  { id := str ("s1"), classId := some (str ("cg")),
    name := str ("A"), uniqueId := some 1 }

/-! ### Helper lemmas about characters -/

theorem char_eq_iff_toNat {a b : Char} : a = b ↔ a.toNat = b.toNat :=
  ⟨fun h => h ▸ rfl, fun h => by rw [← Char.ofNat_toNat a, h, Char.ofNat_toNat]⟩

theorem char_beq_iff_toNat {a b : Char} :
    (a == b) = true ↔ a.toNat = b.toNat := by
  rw [beq_iff_eq]
  exact char_eq_iff_toNat

theorem char_beq_eq_false {a b : Char} :
    (a == b) = false ↔ ¬ a.toNat = b.toNat := by
  rw [← Bool.not_eq_true, char_beq_iff_toNat]

theorem isDigit_iff {c : Char} :
    c.isDigit = true ↔ 48 ≤ c.toNat ∧ c.toNat ≤ 57 := by
  simp [Char.isDigit, UInt32.le_def, BitVec.le_def, Char.toNat, UInt32.toNat]

theorem isAlphanum_iff {c : Char} : c.isAlphanum = true ↔
    (65 ≤ c.toNat ∧ c.toNat ≤ 90) ∨ (97 ≤ c.toNat ∧ c.toNat ≤ 122) ∨
      (48 ≤ c.toNat ∧ c.toNat ≤ 57) := by
  simp [Char.isAlphanum, Char.isAlpha, Char.isUpper, Char.isLower,
    Char.isDigit, UInt32.le_def, BitVec.le_def, Char.toNat, UInt32.toNat]
  tauto

theorem isHexDigit_iff {c : Char} : isHexDigit c = true ↔
    (48 ≤ c.toNat ∧ c.toNat ≤ 57) ∨ (97 ≤ c.toNat ∧ c.toNat ≤ 102) ∨
      (65 ≤ c.toNat ∧ c.toNat ≤ 70) := by
  simp [isHexDigit, Char.isDigit, Char.le_def, UInt32.le_def, BitVec.le_def,
    Char.toNat, UInt32.toNat]
  tauto

theorem toNat_ofNat_valid {n : Nat} (h : n < 55296) :
    (Char.ofNat n).toNat = n := by
  unfold Char.ofNat
  rw [dif_pos (Or.inl h)]
  unfold Char.ofNatAux Char.toNat UInt32.toNat
  simp

theorem toLower_toNat (c : Char) : (Char.toLower c).toNat =
    if 65 ≤ c.toNat ∧ c.toNat ≤ 90 then c.toNat + 32 else c.toNat := by
  unfold Char.toLower
  simp only [ge_iff_le]
  by_cases h : 65 ≤ c.toNat ∧ c.toNat ≤ 90
  · rw [if_pos h, if_pos h]
    exact toNat_ofNat_valid (by omega)
  · rw [if_neg h, if_neg h]

theorem toLower_eq_self {c : Char}
    (h : ¬ (65 ≤ c.toNat ∧ c.toNat ≤ 90)) : Char.toLower c = c := by
  rw [char_eq_iff_toNat, toLower_toNat, if_neg h]

theorem jsWhite_iff_mem {c : Char} : jsWhite c = true ↔ c ∈ jsWhiteChars := by
  unfold jsWhite List.contains
  exact List.elem_iff

theorem jsWhiteChars_not_alnum :
    ∀ x ∈ jsWhiteChars, ¬ (48 ≤ x.toNat ∧ x.toNat ≤ 122) := by
  decide

theorem not_jsWhite_of_digit {c : Char} (h : c.isDigit = true) :
    jsWhite c = false := by
  rcases isDigit_iff.mp h with ⟨h1, h2⟩
  cases hw : jsWhite c with
  | false => rfl
  | true =>
      exact absurd ⟨h1, by omega⟩
        (jsWhiteChars_not_alnum c (jsWhite_iff_mem.mp hw))

theorem toLower_eq_self_of_digit {c : Char} (h : c.isDigit = true) :
    Char.toLower c = c := by
  rcases isDigit_iff.mp h with ⟨h1, h2⟩
  exact toLower_eq_self (by omega)

/-! ### Helper lemmas about all-digit strings -/

theorem dropWhile_eq_self_of_all {p : Char → Bool} :
    ∀ {s : List Char}, (∀ c ∈ s, p c = false) → s.dropWhile p = s := by
  intro s h
  cases s with
  | nil => rfl
  | cons c t => simp [List.dropWhile_cons, h c (List.mem_cons_self c t)]

theorem takeWhile_eq_self_of_all {p : Char → Bool} :
    ∀ {s : List Char}, (∀ c ∈ s, p c = true) → s.takeWhile p = s := by
  intro s h
  induction s with
  | nil => rfl
  | cons c t ih =>
      simp only [List.takeWhile_cons, h c (List.mem_cons_self c t), if_true]
      rw [ih (fun x hx => h x (List.mem_cons_of_mem c hx))]

theorem jsTrim_eq_self {s : List Char}
    (h : ∀ c ∈ s, jsWhite c = false) : jsTrim s = s := by
  unfold jsTrim
  rw [dropWhile_eq_self_of_all h,
    dropWhile_eq_self_of_all (fun c hc => h c (List.mem_reverse.mp hc)),
    List.reverse_reverse]

theorem dropWhile_eq_nil_of_all {p : Char → Bool} {s : List Char}
    (h : ∀ c ∈ s, p c = true) : s.dropWhile p = [] := by
  induction s with
  | nil => rfl
  | cons c t ih =>
      simp only [List.dropWhile_cons, h c (List.mem_cons_self c t), if_true]
      exact ih (fun x hx => h x (List.mem_cons_of_mem c hx))

theorem lowerStr_eq_self_of_digits {s : List Char}
    (h : ∀ c ∈ s, c.isDigit = true) : lowerStr s = s := by
  unfold lowerStr
  induction s with
  | nil => rfl
  | cons c t ih =>
      rw [List.map_cons,
        toLower_eq_self_of_digit (h c (List.mem_cons_self c t)),
        ih (fun x hx => h x (List.mem_cons_of_mem c hx))]

/-- `some a == some b` computes the element test. -/
theorem some_beq_some {a b : Char} : ((some a == some b) : Bool) = (a == b) :=
  rfl

theorem digit_beq_false {c : Char} (hc : c.isDigit = true) (d : Char)
    (hd : ¬ (48 ≤ d.toNat ∧ d.toNat ≤ 57)) : (c == d) = false := by
  rcases isDigit_iff.mp hc with ⟨h1, h2⟩
  rw [char_beq_eq_false]
  omega

theorem stripSign1_eq_self_of_digit_head {c : Char} {t : List Char}
    (hc : c.isDigit = true) : stripSign1 (c :: t) = c :: t := by
  unfold stripSign1
  simp only [List.head?_cons, some_beq_some,
    digit_beq_false hc '+' (by decide), digit_beq_false hc '-' (by decide),
    Bool.or_false]
  rfl

theorem jsNumberNotNaN_of_digits {s : List Char} (hne : s ≠ [])
    (h : ∀ c ∈ s, c.isDigit = true) : jsNumberNotNaN s = true := by
  obtain ⟨c, t, rfl⟩ : ∃ c t, s = c :: t := by
    cases s with
    | nil => exact absurd rfl hne
    | cons c t => exact ⟨c, t, rfl⟩
  have hc := h c (List.mem_cons_self c t)
  have hman : isMantissaExp (c :: t) = true := by
    unfold isMantissaExp
    rw [takeWhile_eq_self_of_all h, dropWhile_eq_nil_of_all h]
    simp [isExpOpt]
  simp only [jsNumberNotNaN, isStrDecimal]
  rw [stripSign1_eq_self_of_digit_head hc, hman]
  simp

/-! ### Helper lemmas about decimal renderings of naturals -/

theorem natToCharsAux_eq : ∀ (f n : Nat), n ≤ f →
    natToCharsAux f n
      = ((Nat.digits 10 n).map (fun d => Char.ofNat (48 + d))).reverse
  | 0, n, hf => by
      have hn : n = 0 := Nat.le_zero.mp hf
      subst hn
      rw [Nat.digits_zero]
      rfl
  | f + 1, n, hf => by
      by_cases hn : n = 0
      · subst hn
        simp [natToCharsAux, Nat.digits_zero]
      · have hlt : n / 10 < n :=
          Nat.div_lt_self (Nat.pos_of_ne_zero hn) (by omega)
        have hrec := natToCharsAux_eq f (n / 10) (by omega)
        unfold natToCharsAux
        rw [if_neg hn, hrec,
          Nat.digits_def' (by omega : (1:Nat) < 10) (Nat.pos_of_ne_zero hn)]
        rw [List.map_cons, List.reverse_cons]

theorem natToChars_eq {n : Nat} (hn : n ≠ 0) :
    natToChars n
      = ((Nat.digits 10 n).map (fun d => Char.ofNat (48 + d))).reverse := by
  unfold natToChars
  rw [if_neg hn]
  exact natToCharsAux_eq n n (le_refl n)

theorem toNat_digitChar {d : Nat} (h : d < 10) :
    (Char.ofNat (48 + d)).toNat = 48 + d :=
  toNat_ofNat_valid (by omega)

theorem digitChar_isDigit {d : Nat} (h : d < 10) :
    (Char.ofNat (48 + d)).isDigit = true :=
  isDigit_iff.mpr (by rw [toNat_digitChar h]; omega)

theorem natToChars_all_digits {n : Nat} (hn : n ≠ 0) :
    ∀ c ∈ natToChars n, c.isDigit = true := by
  intro c hc
  rw [natToChars_eq hn] at hc
  rcases List.mem_map.mp (List.mem_reverse.mp hc) with ⟨d, hd, rfl⟩
  exact digitChar_isDigit (Nat.digits_lt_base (by omega) hd)

theorem natToChars_ne_nil {n : Nat} (hn : n ≠ 0) : natToChars n ≠ [] := by
  rw [natToChars_eq hn]
  simp only [ne_eq, List.reverse_eq_nil_iff, List.map_eq_nil_iff]
  exact Nat.digits_ne_nil_iff_ne_zero.mpr hn

theorem natToChars_length {n : Nat} (hn : n ≠ 0) :
    (natToChars n).length = (Nat.digits 10 n).length := by
  rw [natToChars_eq hn]
  simp

theorem natToChars_length_lt {n : Nat} (h1 : n ≠ 0)
    (h2 : n < 1000000000) : (natToChars n).length < 10 := by
  rw [natToChars_length h1, Nat.digits_len 10 n (by omega) h1]
  have : Nat.log 10 n < 9 :=
    Nat.log_lt_of_lt_pow h1 (by norm_num; omega)
  omega

theorem decVal_digit_fold : ∀ (L : List Nat), (∀ d ∈ L, d < 10) →
    ∀ (a : Nat),
      ((L.map (fun d => Char.ofNat (48 + d))).reverse).foldl
          (fun a c => 10 * a + digitVal c) a
        = a * 10 ^ L.length + Nat.ofDigits 10 L
  | [], _, a => by simp [Nat.ofDigits_nil]
  | d :: L, h, a => by
      have hd : d < 10 := h d (List.mem_cons_self d L)
      have hrec := decVal_digit_fold L
        (fun x hx => h x (List.mem_cons_of_mem d hx)) a
      rw [List.map_cons, List.reverse_cons, List.foldl_append, hrec]
      simp only [List.foldl_cons, List.foldl_nil]
      rw [Nat.ofDigits_cons]
      unfold digitVal
      rw [toNat_digitChar hd]
      have hpow : (10:Nat) ^ (d :: L).length = 10 ^ L.length * 10 := by
        rw [List.length_cons, pow_succ]
      rw [hpow]
      ring_nf
      omega

theorem decVal_natToChars {n : Nat} (hn : n ≠ 0) :
    decVal (natToChars n) = n := by
  unfold decVal
  rw [natToChars_eq hn,
    decVal_digit_fold (Nat.digits 10 n)
      (fun d hd => Nat.digits_lt_base (by omega) hd) 0]
  simp [Nat.ofDigits_digits]

theorem natToChars_head_ne_zero {n : Nat} (hn : n ≠ 0) :
    ((natToChars n).head? == some '0') = false := by
  rw [natToChars_eq hn]
  rw [List.head?_reverse]
  rcases hL : (Nat.digits 10 n).getLast? with _ | d
  · rw [List.getLast?_map, hL]
    rfl
  · rw [List.getLast?_map, hL]
    have hnil : Nat.digits 10 n ≠ [] :=
      Nat.digits_ne_nil_iff_ne_zero.mpr hn
    rw [List.getLast?_eq_getLast _ hnil] at hL
    have hdval : (Nat.digits 10 n).getLast hnil = d := Option.some.inj hL
    have hmem : d ∈ Nat.digits 10 n := hdval ▸ List.getLast_mem hnil
    have hd10 : d < 10 := Nat.digits_lt_base (by omega) hmem
    have hdz : d ≠ 0 := hdval ▸ Nat.getLast_digit_ne_zero 10 hn
    simp only [Option.map_some', some_beq_some]
    rw [char_beq_eq_false, toNat_digitChar hd10]
    have h48 : '0'.toNat = 48 := rfl
    omega


theorem jsParseInt_digits {s : List Char} (hne : s ≠ [])
    (hall : ∀ c ∈ s, c.isDigit = true)
    (h0 : (s.head? == some '0') = false) :
    jsParseInt s = some ((decVal s : Nat) : Int) := by
  obtain ⟨c, t, rfl⟩ : ∃ c t, s = c :: t := by
    cases s with
    | nil => exact absurd rfl hne
    | cons c t => exact ⟨c, t, rfl⟩
  have hc := hall c (List.mem_cons_self c t)
  have hnw : ∀ x ∈ c :: t, jsWhite x = false :=
    fun x hx => not_jsWhite_of_digit (hall x hx)
  rw [List.head?_cons, some_beq_some] at h0
  simp only [jsParseInt, jsParseIntCore, dropWhile_eq_self_of_all hnw,
    List.head?_cons, some_beq_some, digit_beq_false hc '-' (by decide),
    digit_beq_false hc '+' (by decide), Bool.or_self, Bool.false_and,
    h0, if_false, Bool.false_eq_true, ite_false,
    takeWhile_eq_self_of_all hall, List.isEmpty_cons, Option.map_some']
  rfl

theorem findSome?_eq_some_of_unique {α β : Type} {f : α → Option β}
    {v : β} : ∀ {l : List α}, (∀ x ∈ l, f x = none ∨ f x = some v) →
      (∃ x ∈ l, f x = some v) → List.findSome? f l = some v := by
  intro l
  induction l with
  | nil =>
      intro _ hex
      simp at hex
  | cons a t ih =>
      intro hall hex
      rw [List.findSome?_cons]
      cases hfa : f a with
      | some w =>
          rcases hall a (List.mem_cons_self a t) with hnone | hsome
          · rw [hfa] at hnone
            exact Option.noConfusion hnone
          · rw [hfa] at hsome
            exact hsome
      | none =>
          rcases hex with ⟨x, hx, hfx⟩
          rcases List.mem_cons.mp hx with rfl | hxm
          · rw [hfa] at hfx
            exact Option.noConfusion hfx
          · exact ih (fun y hy => hall y (List.mem_cons_of_mem a hy))
              ⟨x, hxm, hfx⟩

/-! ### Helper lemmas about the stable sort -/

theorem mem_jsInsert {α : Type} (le : α → α → Bool) (x a : α)
    (l : List α) : a ∈ jsInsert le x l ↔ a = x ∨ a ∈ l := by
  induction l with
  | nil => simp [jsInsert]
  | cons y ys ih =>
      simp only [jsInsert]
      split
      · simp only [List.mem_cons, ih]
        tauto
      · simp only [List.mem_cons]

theorem jsInsert_perm {α : Type} (le : α → α → Bool) (x : α)
    (l : List α) : (jsInsert le x l).Perm (x :: l) := by
  induction l with
  | nil => exact List.Perm.refl _
  | cons y ys ih =>
      simp only [jsInsert]
      split
      · exact (ih.cons y).trans (List.Perm.swap x y ys)
      · exact List.Perm.refl _

theorem foldl_jsInsert_perm {α : Type} (le : α → α → Bool) :
    ∀ (l acc : List α),
      (l.foldl (fun a x => jsInsert le x a) acc).Perm (acc ++ l)
  | [], acc => by simp
  | x :: xs, acc => by
      have h1 := foldl_jsInsert_perm le xs (jsInsert le x acc)
      have h2 : (jsInsert le x acc ++ xs).Perm (acc ++ x :: xs) :=
        ((jsInsert_perm le x acc).append_right xs).trans List.perm_middle.symm
      exact h1.trans h2

theorem jsSort_perm {α : Type} (le : α → α → Bool) (l : List α) :
    (jsSort le l).Perm l := by
  simpa using foldl_jsInsert_perm le l []

theorem mem_jsSort {α : Type} {le : α → α → Bool} {a : α} {l : List α} :
    a ∈ jsSort le l ↔ a ∈ l := (jsSort_perm le l).mem_iff

theorem pairwise_jsInsert {α : Type} {le : α → α → Bool}
    (htrans : ∀ a b c, le a b = true → le b c = true → le a c = true)
    (htot : ∀ a b, le a b = true ∨ le b a = true) (x : α) :
    ∀ {l : List α}, List.Pairwise (fun a b => le a b = true) l →
      List.Pairwise (fun a b => le a b = true) (jsInsert le x l) := by
  intro l h
  induction l with
  | nil => simp [jsInsert]
  | cons y ys ih =>
      rw [List.pairwise_cons] at h
      obtain ⟨hy, hys⟩ := h
      simp only [jsInsert]
      split
      · rename_i hle
        rw [List.pairwise_cons]
        refine ⟨?_, ih hys⟩
        intro b hb
        rcases (mem_jsInsert le x b ys).mp hb with rfl | hbm
        · exact hle
        · exact hy b hbm
      · rename_i hle
        have hxy : le x y = true := (htot x y).resolve_right (by simpa using hle)
        rw [List.pairwise_cons]
        refine ⟨?_, List.pairwise_cons.mpr ⟨hy, hys⟩⟩
        intro b hb
        rcases List.mem_cons.mp hb with rfl | hbm
        · exact hxy
        · exact htrans x y b hxy (hy b hbm)

theorem pairwise_foldl_jsInsert {α : Type} {le : α → α → Bool}
    (htrans : ∀ a b c, le a b = true → le b c = true → le a c = true)
    (htot : ∀ a b, le a b = true ∨ le b a = true) :
    ∀ (l acc : List α), List.Pairwise (fun a b => le a b = true) acc →
      List.Pairwise (fun a b => le a b = true)
        (l.foldl (fun a x => jsInsert le x a) acc)
  | [], _, h => h
  | x :: xs, acc, h =>
      pairwise_foldl_jsInsert htrans htot xs (jsInsert le x acc)
        (pairwise_jsInsert htrans htot x h)

theorem pairwise_jsSort {α : Type} (le : α → α → Bool)
    (htrans : ∀ a b c, le a b = true → le b c = true → le a c = true)
    (htot : ∀ a b, le a b = true ∨ le b a = true) (l : List α) :
    List.Pairwise (fun a b => le a b = true) (jsSort le l) :=
  pairwise_foldl_jsInsert htrans htot l [] List.Pairwise.nil

/-! ### Helper lemmas about the resolver loop -/

theorem tryClass_eq_none {db : List Student} {token : List Char}
    {cls : ClassGroup}
    (h : List.isPrefixOf (cleanName cls.name) (lowerStr token) = false) :
    tryClass db token cls = none := by
  simp [tryClass, tryClassStudent, h]

theorem tryClass_eq_some {db : List Student} {token : List Char}
    {cls : ClassGroup} {p : Student × ClassGroup}
    (h : tryClass db token cls = some p) :
    ∃ s, tryClassStudent db token cls = some s ∧ p = (s, cls) := by
  unfold tryClass at h
  rcases Option.map_eq_some'.mp h with ⟨s, hs, hp⟩
  exact ⟨s, hs, hp.symm⟩

theorem mem_sortClasses {c : ClassGroup} {l : List ClassGroup} :
    c ∈ sortClasses l ↔ c ∈ l := mem_jsSort

theorem sortClasses_pairwise (l : List ClassGroup) :
    List.Pairwise (fun a b => b.name.length ≤ a.name.length)
      (sortClasses l) := by
  have h := pairwise_jsSort
    (fun a b => decide (b.name.length ≤ a.name.length))
    (fun a b c h1 h2 => by
      simp only [decide_eq_true_eq] at *
      omega)
    (fun a b => by
      simp only [decide_eq_true_eq]
      omega) l
  exact h.imp (fun hab => by simpa using hab)

theorem findSome?_tryClass_sorted {db : List Student} {token : List Char} :
    ∀ {l : List ClassGroup},
      List.Pairwise (fun a b => b.name.length ≤ a.name.length) l →
      ∀ {c2 : ClassGroup}, c2 ∈ l → tryClass db token c2 ≠ none →
      ∃ s c, List.findSome? (tryClass db token) l = some (s, c) ∧
        c2.name.length ≤ c.name.length := by
  intro l
  induction l with
  | nil =>
      intro _ c2 hmem _
      simp at hmem
  | cons x xs ih =>
      intro hp c2 hmem hy
      rw [List.pairwise_cons] at hp
      obtain ⟨hx, hxs⟩ := hp
      cases htc : tryClass db token x with
      | some p =>
          obtain ⟨s, _, rfl⟩ := tryClass_eq_some htc
          refine ⟨s, x, by rw [List.findSome?_cons, htc], ?_⟩
          rcases List.mem_cons.mp hmem with rfl | hm
          · exact le_refl _
          · exact hx c2 hm
      | none =>
          rcases List.mem_cons.mp hmem with rfl | hm
          · exact absurd htc hy
          · obtain ⟨s, c, hfs, hlen⟩ := ih hxs hm hy
            exact ⟨s, c, by rw [List.findSome?_cons, htc, hfs], hlen⟩

/-! ### Claim C5 — bare UUID resolves through the fallback -/

/-- C5: a token in canonical UUID form that no class's clean name
prefixes reaches the whole-token fallback lookup, and resolves to the
student of that id when the global directory holds one. -/
theorem C5_bare_uuid_fallback (token : List Char)
    (classes : List ClassGroup) (db : List Student) (st : Student)
    (huuid : isValidUUID token = true)
    (hnp : ∀ c ∈ classes,
        List.isPrefixOf (cleanName c.name) (lowerStr token) = false)
    (hfind : db.find? (fun s => lowerStr s.id == lowerStr token) = some st) :
    (resolve token classes db).1 = some st := by
  have hloop : List.findSome? (tryClass db token) (sortClasses classes)
      = none := by
    rw [List.findSome?_eq_none_iff]
    intro c hc
    exact tryClass_eq_none (hnp c (mem_sortClasses.mp hc))
  simp [resolve, hloop, getStudent, getStudentQueried, huuid, hfind]

/-- Witness for C5 at a concrete bare-UUID token. -/
theorem C5_bare_uuid_fallback_witness :
    (resolve c5tok [c5cls] [c5stu]).1 = some c5stu :=
  C5_bare_uuid_fallback c5tok [c5cls] [c5stu] c5stu (by decide)
    (by
      intro c hc
      rcases List.mem_singleton.mp hc with rfl
      decide)
    (by decide)

/-! ### Claim C6 — no short-circuit on a prefix match alone -/

/-- C6: when some class's clean name prefixes the normalized token but
every class iteration falls through (neither branch yields a student),
resolution is decided by the fallback on the entire original token:
"not found" exactly when that fallback fails, and the fallback's
student otherwise. -/
theorem C6_no_short_circuit (token : List Char)
    (classes : List ClassGroup) (db : List Student)
    (hmatch : ∃ c ∈ classes,
        List.isPrefixOf (cleanName c.name) (lowerStr token) = true)
    (hfail : ∀ c ∈ classes, tryClass db token c = none) :
    (getStudent db token = none → resolve token classes db = (none, none)) ∧
      ∀ st, getStudent db token = some st →
        (resolve token classes db).1 = some st := by
  have hloop : List.findSome? (tryClass db token) (sortClasses classes)
      = none := by
    rw [List.findSome?_eq_none_iff]
    intro c hc
    exact hfail c (mem_sortClasses.mp hc)
  constructor
  · intro hnone
    simp [resolve, hloop, hnone]
  · intro st hst
    simp [resolve, hloop, hst]

/-- Witness for C6: with an empty student table, the prefix-matching
token resolves to "not found" through the fallback. -/
theorem C6_no_short_circuit_witness :
    (getStudent [] c6tok = none → resolve c6tok [c6cls] [] = (none, none)) ∧
      ∀ st, getStudent [] c6tok = some st →
        (resolve c6tok [c6cls] []).1 = some st :=
  C6_no_short_circuit c6tok [c6cls] []
    ⟨c6cls, List.mem_singleton.mpr rfl, by decide⟩
    (by
      intro c hc
      rcases List.mem_singleton.mp hc with rfl
      decide)

/-! ### Helper lemmas about the student ordering -/

theorem nameLe_total : ∀ (s t : List Char),
    nameLe s t = true ∨ nameLe t s = true
  | [], _ => Or.inl rfl
  | _ :: _, [] => Or.inr rfl
  | c :: cs, d :: ds => by
      simp only [nameLe]
      by_cases h : c.toNat = d.toNat
      · rw [if_pos h, if_pos h.symm]
        exact nameLe_total cs ds
      · rw [if_neg h, if_neg (fun hh => h hh.symm)]
        simp only [decide_eq_true_eq]
        omega

theorem nameLe_trans : ∀ (s t u : List Char), nameLe s t = true →
    nameLe t u = true → nameLe s u = true
  | [], _, _, _, _ => rfl
  | _ :: _, [], _, h, _ => by simp [nameLe] at h
  | _ :: _, _ :: _, [], _, h => by simp [nameLe] at h
  | c :: cs, d :: ds, e :: es, h1, h2 => by
      simp only [nameLe] at h1 h2 ⊢
      by_cases hcd : c.toNat = d.toNat
      · by_cases hde : d.toNat = e.toNat
        · rw [if_pos hcd] at h1
          rw [if_pos hde] at h2
          rw [if_pos (hcd.trans hde)]
          exact nameLe_trans cs ds es h1 h2
        · rw [if_pos hcd] at h1
          rw [if_neg hde] at h2
          simp only [decide_eq_true_eq] at h2
          rw [if_neg (by omega)]
          simp only [decide_eq_true_eq]
          omega
      · rw [if_neg hcd] at h1
        simp only [decide_eq_true_eq] at h1
        by_cases hde : d.toNat = e.toNat
        · rw [if_pos hde] at h2
          rw [if_neg (by omega)]
          simp only [decide_eq_true_eq]
          omega
        · rw [if_neg hde] at h2
          simp only [decide_eq_true_eq] at h2
          rw [if_neg (by omega)]
          simp only [decide_eq_true_eq]
          omega

theorem studentLe_total : ∀ (a b : Student),
    studentLe a b = true ∨ studentLe b a = true := by
  intro a b
  unfold studentLe
  by_cases h : sortKey a = sortKey b
  · rw [if_pos h, if_pos h.symm]
    exact nameLe_total _ _
  · rw [if_neg h, if_neg (fun hh => h hh.symm)]
    simp only [decide_eq_true_eq]
    omega

theorem studentLe_trans : ∀ (a b c : Student), studentLe a b = true →
    studentLe b c = true → studentLe a c = true := by
  intro a b c h1 h2
  unfold studentLe at h1 h2 ⊢
  by_cases hab : sortKey a = sortKey b
  · by_cases hbc : sortKey b = sortKey c
    · rw [if_pos hab] at h1
      rw [if_pos hbc] at h2
      rw [if_pos (hab.trans hbc)]
      exact nameLe_trans _ _ _ h1 h2
    · rw [if_pos hab] at h1
      rw [if_neg hbc] at h2
      simp only [decide_eq_true_eq] at h2
      rw [if_neg (by omega)]
      simp only [decide_eq_true_eq]
      omega
  · rw [if_neg hab] at h1
    simp only [decide_eq_true_eq] at h1
    by_cases hbc : sortKey b = sortKey c
    · rw [if_pos hbc] at h2
      rw [if_neg (by omega)]
      simp only [decide_eq_true_eq]
      omega
    · rw [if_neg hbc] at h2
      simp only [decide_eq_true_eq] at h2
      rw [if_neg (by omega)]
      simp only [decide_eq_true_eq]
      omega

theorem getStudents_pairwise (db : List Student) (cid : List Char) :
    List.Pairwise (fun a b => studentLe a b = true) (getStudents db cid) := by
  unfold getStudents
  exact pairwise_jsSort studentLe studentLe_trans studentLe_total _

theorem mem_of_mem_getStudents {db : List Student} {cid : List Char}
    {s : Student} (h : s ∈ getStudents db cid) : s ∈ db := by
  unfold getStudents at h
  exact (List.mem_filter.mp (mem_jsSort.mp (mem_jsSort.mp h))).1

/-! ### Helper lemmas about integer maximum folds -/

theorem ite_gt_eq_max (a b : Int) : (if b > a then b else a) = max a b := by
  by_cases h : b > a
  · rw [if_pos h]
    exact (max_eq_right (le_of_lt h)).symm
  · rw [if_neg h]
    exact (max_eq_left (by omega)).symm

theorem le_foldl_max : ∀ (l : List Int) (m : Int), m ≤ l.foldl max m
  | [], _ => le_refl _
  | v :: vs, m =>
      le_trans (le_max_left m v) (le_foldl_max vs (max m v))

theorem mem_le_foldl_max : ∀ {l : List Int} {x : Int}, x ∈ l →
    ∀ m : Int, x ≤ l.foldl max m := by
  intro l
  induction l with
  | nil => intro x hx; simp at hx
  | cons v vs ih =>
      intro x hx m
      rcases List.mem_cons.mp hx with rfl | hxm
      · exact le_trans (le_max_right m x) (le_foldl_max vs _)
      · exact ih hxm _

theorem saveStudentUniqueNumber_eq (l : List Student) :
    saveStudentUniqueNumber l
      = (l.map (fun s => s.uniqueId.getD 0)).foldl max 0 + 1 := by
  unfold saveStudentUniqueNumber
  rw [List.foldl_map]
  have hfun : (fun (m : Int) (s : Student) =>
      let num := s.uniqueId.getD 0
      if num > m then num else m)
      = fun (m : Int) (s : Student) => max m (s.uniqueId.getD 0) := by
    funext m s
    exact ite_gt_eq_max m (s.uniqueId.getD 0)
  rw [hfun]

theorem foldl_max_map_getD : ∀ (l : List Student) (m : Int), 0 ≤ m →
    (l.map (fun s => s.uniqueId.getD 0)).foldl max m
      = (l.filterMap (fun s => s.uniqueId)).foldl max m := by
  intro l
  induction l with
  | nil => intro m _; rfl
  | cons s t ih =>
      intro m h0
      cases hsu : s.uniqueId with
      | none =>
          simp only [List.map_cons, List.foldl_cons, hsu, Option.getD_none,
            List.filterMap_cons_none hsu]
          rw [max_eq_left h0]
          exact ih m h0
      | some v =>
          simp only [List.map_cons, List.foldl_cons, hsu, Option.getD_some,
            List.filterMap_cons_some hsu]
          exact ih (max m v) (le_trans h0 (le_max_left _ _))

theorem specMax_eq_foldl (l : List Student)
    (hpos : ∀ s ∈ l, ∀ v, s.uniqueId = some v → 0 < v) :
    (l.filterMap (fun s => s.uniqueId)).foldl max 0 = specMaxUniqueId l := by
  unfold specMaxUniqueId
  cases hv : l.filterMap (fun s => s.uniqueId) with
  | nil => rfl
  | cons v vs =>
      simp only [List.foldl_cons]
      have hv0 : 0 < v := by
        have hvm : v ∈ l.filterMap (fun s => s.uniqueId) := by
          rw [hv]
          exact List.mem_cons_self _ _
        rcases List.mem_filterMap.mp hvm with ⟨s, hs, hsv⟩
        exact hpos s hs v hsv
      rw [max_eq_right (le_of_lt hv0)]

/-! ### Claim C9 — the auto-increment of `saveStudent` -/

/-- C9: when a student is saved without a `uniqueId` into a class whose
recorded `uniqueId`s are positive (the data-model invariant — they are
assigned by this very function), the assigned number equals one plus the
maximum recorded `uniqueId` (0 when none is recorded), and is strictly
greater than every recorded `uniqueId` of the class. -/
theorem C9_saveStudent_assign (existing : List Student)
    (hpos : ∀ s ∈ existing, ∀ v, s.uniqueId = some v → 0 < v) :
    saveStudentUniqueNumber existing = specMaxUniqueId existing + 1 ∧
      ∀ s ∈ existing, ∀ v, s.uniqueId = some v →
        v < saveStudentUniqueNumber existing := by
  constructor
  · rw [saveStudentUniqueNumber_eq,
      foldl_max_map_getD existing 0 (le_refl 0),
      specMax_eq_foldl existing hpos]
  · intro s hs v hv
    have hb : v ≤ (existing.map (fun s => s.uniqueId.getD 0)).foldl max 0 := by
      apply mem_le_foldl_max
      exact List.mem_map.mpr ⟨s, hs, by rw [hv]; rfl⟩
    rw [saveStudentUniqueNumber_eq]
    omega

/-- Witness for C9 on a one-student roster with `uniqueId` 2: the next
number is 3. -/
theorem C9_saveStudent_assign_witness :
    saveStudentUniqueNumber [c9stu] = specMaxUniqueId [c9stu] + 1 ∧
      ∀ s ∈ [c9stu], ∀ v, s.uniqueId = some v →
        v < saveStudentUniqueNumber [c9stu] :=
  C9_saveStudent_assign [c9stu]
    (by
      intro s hs v hv
      rcases List.mem_singleton.mp hs with rfl
      have hv2 : some (2 : Int) = some v := hv
      simp only [Option.some.injEq] at hv2
      rw [← hv2]
      decide)

/-! ### Claim C10 (amended) — ordering of `getStudents` -/

/-- C10 (amended): provided no student's `uniqueId` reaches the
comparator's sentinel `Number.MAX_SAFE_INTEGER`, the list returned by
`getStudents` is ordered as the claim describes: students with a
`uniqueId` first in ascending `uniqueId` order, students without one
after them, ties within either group by name comparison. -/
theorem C10_amended (db : List Student) (cid : List Char)
    (h : ∀ s ∈ db, ∀ v, s.uniqueId = some v → v < maxSafeInteger) :
    List.Pairwise (fun a b => claimStudentOrder a b = true)
      (getStudents db cid) := by
  refine List.Pairwise.imp_of_mem ?_ (getStudents_pairwise db cid)
  intro a b ha hb hab
  have hA := h a (mem_of_mem_getStudents ha)
  have hB := h b (mem_of_mem_getStudents hb)
  unfold studentLe at hab
  unfold claimStudentOrder
  cases hau : a.uniqueId with
  | some x =>
      cases hbu : b.uniqueId with
      | some y =>
          have hka : sortKey a = x := by simp [sortKey, hau]
          have hkb : sortKey b = y := by simp [sortKey, hbu]
          rw [hka, hkb] at hab
          simp only []
          by_cases hxy : x = y
          · rw [if_pos hxy] at hab
            simp [hxy, hab]
          · rw [if_neg hxy] at hab
            simp only [decide_eq_true_eq] at hab
            simp [hab]
      | none => simp
  | none =>
      cases hbu : b.uniqueId with
      | some y =>
          have hka : sortKey a = maxSafeInteger := by simp [sortKey, hau]
          have hkb : sortKey b = y := by simp [sortKey, hbu]
          rw [hka, hkb] at hab
          have hy := hB y hbu
          rw [if_neg (by omega)] at hab
          simp only [decide_eq_true_eq] at hab
          omega
      | none =>
          have hka : sortKey a = maxSafeInteger := by simp [sortKey, hau]
          have hkb : sortKey b = maxSafeInteger := by simp [sortKey, hbu]
          rw [hka, hkb, if_pos rfl] at hab
          simp [hab]

/-- Witness for the amended C10 on a two-student roster. -/
theorem C10_amended_witness :
    List.Pairwise (fun a b => claimStudentOrder a b = true)
      (getStudents [c10w1, c10w2] (str ("k"))) :=
  C10_amended [c10w1, c10w2] (str ("k"))
    (by
      intro s hs v hv
      rcases List.mem_cons.mp hs with rfl | hs
      · have hv1 : some (1 : Int) = some v := hv
        simp only [Option.some.injEq] at hv1
        rw [← hv1]
        decide
      · rcases List.mem_cons.mp hs with rfl | hs
        · exact Option.noConfusion (show (none : Option Int) = some v from hv)
        · simp at hs)

/-! ### Claim C8 — `getStudent` guards malformed identifiers -/

/-- C8: for every input string that is not in canonical UUID form,
`getStudent` returns "not found" (`none`) and issues no query to the
data store (query count 0). The model is a total function, so no
exception path exists. -/
theorem C8_getStudent_guard (db : List Student) (id : List Char)
    (h : isValidUUID id = false) : getStudentQueried db id = (none, 0) := by
  simp [getStudentQueried, h]

/-- Witness for C8 at a concrete malformed identifier. -/
theorem C8_getStudent_guard_witness :
    isValidUUID (str ("Grade12")) = false ∧
      getStudentQueried [] (str ("Grade12")) = (none, 0) :=
  ⟨by decide, C8_getStudent_guard [] (str ("Grade12")) (by decide)⟩

/-! ### Claim C2 — guard of the numeric branch -/

/-- C2 counterexample: the trimmed remainder `"-5"` is not a pure string
of decimal digits (it carries a sign), yet the numeric branch fires:
its guard accepts `"-5"`, and the whole resolver resolves the token
`"Grade-5"` to the student whose sequence number is `-5` — which is
only reachable through the numeric branch's directory search. -/
theorem C2_counterexample :
    numericCond (str ("-5")) = true ∧
      (str ("-5")).all Char.isDigit = false ∧
      resolve (str ("Grade-5")) [c2cls] [c2stu] = (some c2stu, some c2cls) := by
  refine ⟨by decide, by decide, by decide⟩

/-- C2 (amended): the numeric branch is taken iff the trimmed remainder
is non-empty, has fewer than 10 characters, and is accepted by the
JavaScript `Number` conversion — which admits, besides pure digit
strings, signed decimals with fraction or exponent, signed `Infinity`,
and `0x`/`0o`/`0b` literals. -/
theorem C2_amended (r : List Char) :
    numericCond r = true ↔
      r ≠ [] ∧ jsNumberNotNaN r = true ∧ r.length < 10 := by
  simp [numericCond, and_assoc, List.length_pos_iff_ne_nil, and_comm, and_left_comm]

/-! ### Claim C1 — longest-prefix-wins and the raw-length ordering -/

/-- C1 counterexample: `cleanName c1clsA.name = "grade1"` is a strict
proper prefix of `cleanName c1clsB.name = "grade12"`, the token
`"grade123"` starts with the longer clean name, and `c1clsB` yields a
student for it — yet the resolver, which orders by descending RAW name
length, tries `c1clsA` (raw length 10) before `c1clsB` (raw length 8)
and resolves against `c1clsA`. -/
theorem C1_counterexample :
    List.isPrefixOf (cleanName c1clsA.name) (cleanName c1clsB.name) = true ∧
      cleanName c1clsA.name ≠ cleanName c1clsB.name ∧
      List.isPrefixOf (cleanName c1clsB.name)
        (lowerStr (str ("grade123"))) = true ∧
      tryClass [c1sA, c1sB] (str ("grade123")) c1clsB = some (c1sB, c1clsB) ∧
      resolve (str ("grade123")) [c1clsA, c1clsB] [c1sA, c1sB]
        = (some c1sA, some c1clsA) ∧
      c1clsA ≠ c1clsB := by
  refine ⟨by decide, by decide, by decide, by decide, by decide, by decide⟩

/-- C1 (amended): the resolver orders candidates by descending RAW name
length, so longest-clean-prefix-wins holds once the raw lengths agree
with the clean-prefix relation: if `cleanName cOne.name` is a strict
proper prefix of `cleanName cTwo.name` AND `cTwo`'s raw name is strictly
longer, then whenever `cTwo` yields a student for the token, resolution
returns a class at least as long (raw) as `cTwo` — never `cOne`. -/
theorem C1_amended (token : List Char) (classes : List ClassGroup)
    (db : List Student) (cOne cTwo : ClassGroup)
    (h1 : cOne ∈ classes) (h2 : cTwo ∈ classes)
    (hpre : List.isPrefixOf (cleanName cOne.name) (cleanName cTwo.name)
      = true)
    (hne : cleanName cOne.name ≠ cleanName cTwo.name)
    (hlen : cOne.name.length < cTwo.name.length)
    (hy : tryClass db token cTwo ≠ none) :
    ∃ s c, resolve token classes db = (some s, some c) ∧
      cTwo.name.length ≤ c.name.length ∧ c ≠ cOne := by
  obtain ⟨s, c, hfs, hclen⟩ := findSome?_tryClass_sorted
    (sortClasses_pairwise classes) (mem_sortClasses.mpr h2) hy
  refine ⟨s, c, by simp [resolve, hfs], hclen, ?_⟩
  intro heq
  rw [heq] at hclen
  omega

/-- Witness for the amended C1 at the spec's own example pair. -/
theorem C1_amended_witness :
    ∃ s c, resolve (str ("grade123")) [c1w1, c1w2] [c1wS]
        = (some s, some c) ∧
      c1w2.name.length ≤ c.name.length ∧ c ≠ c1w1 :=
  C1_amended (str ("grade123")) [c1w1, c1w2] [c1wS] c1w1 c1w2
    (by decide) (by decide) (by decide) (by decide) (by decide) (by decide)

/-! ### Claim C3 — round trip of the display identifier -/

/-- C3 counterexample: the resolver can return `(c3sA, Grade 1)` (the
token `"grade1_23"` does), but its display identifier `"Grade123"`
resolves to `(c3sB, Grade 12)` instead — the longer class name
intercepts the rebuilt token, so the round trip fails. -/
theorem C3_counterexample :
    resolve (str ("grade1_23")) [c3cls1, c3cls12] [c3sA, c3sB]
        = (some c3sA, some c3cls1) ∧
      getFullDisplayId c3sA c3cls1 = str ("Grade123") ∧
      resolve (getFullDisplayId c3sA c3cls1) [c3cls1, c3cls12] [c3sA, c3sB]
        = (some c3sB, some c3cls12) ∧
      ((some c3sB, some c3cls12) :
          Option Student × Option ClassGroup) ≠ (some c3sA, some c3cls1) := by
  refine ⟨by decide, by decide, by decide, by decide⟩

/-- `lowerStr` distributes over concatenation. -/
theorem lowerStr_append (a b : List Char) :
    lowerStr (a ++ b) = lowerStr a ++ lowerStr b := by
  unfold lowerStr
  exact List.map_append _ _ _

/-- On the display identifier of its own class, the loop iteration at
that class takes the numeric branch and finds the student. -/
theorem tryClassStudent_displayId {db : List Student} {cls : ClassGroup}
    {st : Student} {n : Nat}
    (hn1 : 1 ≤ n) (hn2 : n < 1000000000)
    (hid : st.uniqueId = some (n : Int))
    (hfind : (getStudents db cls.id).find?
        (fun s => s.uniqueId == some ((n : Nat) : Int)) = some st) :
    tryClassStudent db (getFullDisplayId st cls) cls = some st := by
  have hne0 : n ≠ 0 := by omega
  have hdisp : getFullDisplayId st cls
      = rawCleanName cls.name ++ natToChars n := by
    unfold getFullDisplayId
    rw [hid]
    have hv : ¬ ((n : Int) = 0) := by omega
    simp only [if_neg hv]
    unfold intToChars
    rw [if_neg (by omega : ¬ ((n : Int) < 0)), Int.toNat_natCast]
  have hlow : lowerStr (getFullDisplayId st cls)
      = cleanName cls.name ++ natToChars n := by
    rw [hdisp, lowerStr_append,
      lowerStr_eq_self_of_digits (natToChars_all_digits hne0)]
    rfl
  have hpre : List.isPrefixOf (cleanName cls.name)
      (lowerStr (getFullDisplayId st cls)) = true := by
    rw [hlow]
    exact List.isPrefixOf_iff_prefix.mpr (List.prefix_append _ _)
  have hlen_eq : (cleanName cls.name).length
      = (rawCleanName cls.name).length := by
    unfold cleanName lowerStr
    exact List.length_map _ _
  have hdrop : (getFullDisplayId st cls).drop (cleanName cls.name).length
      = natToChars n := by
    rw [hdisp, hlen_eq, List.drop_left]
  obtain ⟨c, t, hct⟩ : ∃ c t, natToChars n = c :: t := by
    cases hnn : natToChars n with
    | nil => exact absurd hnn (natToChars_ne_nil hne0)
    | cons c t => exact ⟨c, t, rfl⟩
  have hcdig : c.isDigit = true :=
    natToChars_all_digits hne0 c (hct ▸ List.mem_cons_self c t)
  have hhead_us : ((natToChars n).head? == some '_') = false := by
    rw [hct, List.head?_cons, some_beq_some]
    exact digit_beq_false hcdig '_' (by decide)
  have htrim : jsTrim (natToChars n) = natToChars n :=
    jsTrim_eq_self
      (fun x hx => not_jsWhite_of_digit (natToChars_all_digits hne0 x hx))
  have hcond : numericCond (natToChars n) = true := by
    unfold numericCond
    rw [jsNumberNotNaN_of_digits (natToChars_ne_nil hne0)
      (natToChars_all_digits hne0)]
    have hlp : 0 < (natToChars n).length :=
      List.length_pos.mpr (natToChars_ne_nil hne0)
    have hl10 := natToChars_length_lt hne0 hn2
    simp [hlp, hl10]
  have hparse : jsParseInt (natToChars n) = some ((n : Nat) : Int) := by
    rw [jsParseInt_digits (natToChars_ne_nil hne0)
      (natToChars_all_digits hne0) (natToChars_head_ne_zero hne0),
      decVal_natToChars hne0]
  simp only [tryClassStudent, hpre, if_true, hdrop, hhead_us,
    Bool.false_eq_true, ite_false, htrim, hcond, hparse, hfind]

/-- C3 (amended): the round trip holds provided the display identifier
cannot be intercepted: the student's sequence number `n` satisfies
`1 ≤ n < 10^9`, searching the class's directory for `n` finds this
student, and no OTHER class's clean name prefixes the lowercased display
identifier. Then resolving `cleanName(class) + n` returns the same
`(student, class)` pair. -/
theorem C3_amended (classes : List ClassGroup) (db : List Student)
    (cls : ClassGroup) (st : Student) (n : Nat)
    (hmem : cls ∈ classes)
    (hn1 : 1 ≤ n) (hn2 : n < 1000000000)
    (hid : st.uniqueId = some (n : Int))
    (hfind : (getStudents db cls.id).find?
        (fun s => s.uniqueId == some ((n : Nat) : Int)) = some st)
    (honly : ∀ c ∈ classes, c ≠ cls →
        List.isPrefixOf (cleanName c.name)
          (lowerStr (getFullDisplayId st cls)) = false) :
    resolve (getFullDisplayId st cls) classes db = (some st, some cls) := by
  have hstep : tryClass db (getFullDisplayId st cls) cls = some (st, cls) := by
    unfold tryClass
    rw [tryClassStudent_displayId hn1 hn2 hid hfind]
    rfl
  have hloop : List.findSome? (tryClass db (getFullDisplayId st cls))
      (sortClasses classes) = some (st, cls) := by
    apply findSome?_eq_some_of_unique
    · intro x hx
      by_cases hxc : x = cls
      · subst hxc
        exact Or.inr hstep
      · exact Or.inl (tryClass_eq_none (honly x (mem_sortClasses.mp hx) hxc))
    · exact ⟨cls, mem_sortClasses.mpr hmem, hstep⟩
  simp [resolve, hloop]

/-- Witness for the amended C3: in a one-class directory the display
identifier "Grade123" resolves back to the pair it was built from. -/
theorem C3_amended_witness :
    resolve (getFullDisplayId c3wst c3wcls) [c3wcls] [c3wst]
      = (some c3wst, some c3wcls) :=
  C3_amended [c3wcls] [c3wst] c3wcls c3wst 23
    (by decide) (by decide) (by decide) (by decide) (by decide)
    (by
      intro c hc hne
      rcases List.mem_singleton.mp hc with rfl
      exact absurd rfl hne)

/-! ### Claim C7 — the underscore separator -/

/-- C7 counterexample: `"Grade1_2"` carries a single underscore
immediately after the matching class-name prefix `grade1` of class
"Grade 1", yet it resolves to "not found" while the underscore-free
`"Grade12"` resolves to a student: the shorter class "Grade" sees the
remainders `"1_2"` (rejected by the numeric guard) and `"12"`
(accepted), so the two tokens differ in outcome. -/
theorem C7_counterexample :
    cleanName c7G1.name = str ("grade1") ∧
      str ("Grade1_2") = str ("Grade1") ++ '_' :: str ("2") ∧
      List.isPrefixOf (cleanName c7G1.name)
        (lowerStr (str ("Grade1_2"))) = true ∧
      resolve (str ("Grade1_2")) [c7G, c7G1] [c7s] = (none, none) ∧
      resolve (str ("Grade12")) [c7G, c7G1] [c7s] = (some c7s, some c7G) := by
  refine ⟨by decide, by decide, by decide, by decide, by decide⟩

theorem isPrefixOf_length_eq {s x rest : List Char}
    (h : List.isPrefixOf s (x ++ rest) = true) (hl : s.length = x.length) :
    s = x := by
  have hp := List.isPrefixOf_iff_prefix.mp h
  rw [List.prefix_iff_eq_take] at hp
  rw [hp, hl, List.take_left]

theorem findSome?_congr {α β : Type} {f g : α → Option β} :
    ∀ {l : List α}, (∀ x ∈ l, f x = g x) →
      List.findSome? f l = List.findSome? g l := by
  intro l
  induction l with
  | nil => intro _; rfl
  | cons x t ih =>
      intro h
      rw [List.findSome?_cons, List.findSome?_cons,
        h x (List.mem_cons_self x t),
        ih (fun y hy => h y (List.mem_cons_of_mem x hy))]

theorem exists_enumFrom_of_mem {x : Char} : ∀ {l : List Char}, x ∈ l →
    ∀ k : Nat, ∃ i, (i, x) ∈ l.enumFrom k := by
  intro l
  induction l with
  | nil => intro h; simp at h
  | cons c t ih =>
      intro h k
      rcases List.mem_cons.mp h with rfl | hm
      · exact ⟨k, List.mem_cons_self _ _⟩
      · obtain ⟨i, hi⟩ := ih hm (k + 1)
        exact ⟨i, List.mem_cons_of_mem _ hi⟩

theorem uuidCharOk_underscore (i : Nat) : uuidCharOk i '_' = false := by
  unfold uuidCharOk
  split <;> decide

theorem isValidUUID_false_of_underscore {s : List Char} (h : '_' ∈ s) :
    isValidUUID s = false := by
  cases hu : isValidUUID s with
  | false => rfl
  | true =>
      exfalso
      unfold isValidUUID at hu
      rw [Bool.and_eq_true] at hu
      obtain ⟨i, hi⟩ := exists_enumFrom_of_mem h 0
      have hok := List.all_eq_true.mp hu.2 (i, '_') hi
      rw [uuidCharOk_underscore] at hok
      exact Bool.noConfusion hok

theorem getStudent_eq_none {db : List Student} {id : List Char}
    (h : isValidUUID id = false) : getStudent db id = none := by
  simp [getStudent, getStudentQueried, h]

/-- At every class whose clean name (when it prefix-matches at all) has
exactly the length of the part before the underscore, the loop iteration
treats the underscored and underscore-free tokens identically. -/
theorem tryClass_underscore_eq {db : List Student} {a b : List Char}
    {c : ClassGroup} (hb : (b.head? == some '_') = false)
    (hlenc :
      List.isPrefixOf (cleanName c.name) (lowerStr (a ++ '_' :: b)) = true ∨
        List.isPrefixOf (cleanName c.name) (lowerStr (a ++ b)) = true →
      (cleanName c.name).length = a.length) :
    tryClass db (a ++ '_' :: b) c = tryClass db (a ++ b) c := by
  have hlowt : lowerStr (a ++ '_' :: b) = lowerStr a ++ '_' :: lowerStr b := by
    rw [lowerStr_append]
    unfold lowerStr
    simp only [List.map_cons, show Char.toLower '_' = '_' from by decide]
  have hlowt' : lowerStr (a ++ b) = lowerStr a ++ lowerStr b :=
    lowerStr_append a b
  by_cases hp :
      List.isPrefixOf (cleanName c.name) (lowerStr (a ++ '_' :: b)) = true ∨
        List.isPrefixOf (cleanName c.name) (lowerStr (a ++ b)) = true
  · have hlen := hlenc hp
    have hla : (lowerStr a).length = a.length := List.length_map _ _
    have hcn : cleanName c.name = lowerStr a := by
      rcases hp with hp | hp
      · rw [hlowt] at hp
        exact isPrefixOf_length_eq hp (by omega)
      · rw [hlowt'] at hp
        exact isPrefixOf_length_eq hp (by omega)
    have hpt : List.isPrefixOf (cleanName c.name)
        (lowerStr (a ++ '_' :: b)) = true := by
      rw [hlowt, hcn]
      exact List.isPrefixOf_iff_prefix.mpr (List.prefix_append _ _)
    have hpt' : List.isPrefixOf (cleanName c.name)
        (lowerStr (a ++ b)) = true := by
      rw [hlowt', hcn]
      exact List.isPrefixOf_iff_prefix.mpr (List.prefix_append _ _)
    have hdrop : (a ++ '_' :: b).drop (cleanName c.name).length
        = '_' :: b := by
      rw [hlen]
      exact List.drop_left a _
    have hdrop' : (a ++ b).drop (cleanName c.name).length = b := by
      rw [hlen]
      exact List.drop_left a b
    unfold tryClass tryClassStudent
    simp only [hpt, hpt', if_true, hdrop, hdrop', List.head?_cons,
      some_beq_some, beq_self_eq_true, if_true, List.tail_cons, hb,
      Bool.false_eq_true, ite_false]
  · rw [not_or, Bool.not_eq_true, Bool.not_eq_true] at hp
    rw [tryClass_eq_none hp.1, tryClass_eq_none hp.2]

/-- C7 (amended): the underscored and underscore-free tokens resolve
identically provided (i) every class whose clean name prefix-matches
either token has clean-name length exactly the underscore position,
(ii) the part after the underscore does not itself begin with an
underscore, and (iii) the underscore-free token is not itself in
canonical UUID form. -/
theorem C7_amended (a b : List Char) (classes : List ClassGroup)
    (db : List Student)
    (hmatch : ∃ c ∈ classes, cleanName c.name = lowerStr a)
    (hb : (b.head? == some '_') = false)
    (hlen : ∀ c ∈ classes,
        List.isPrefixOf (cleanName c.name)
            (lowerStr (a ++ '_' :: b)) = true ∨
          List.isPrefixOf (cleanName c.name) (lowerStr (a ++ b)) = true →
        (cleanName c.name).length = a.length)
    (huuid : isValidUUID (a ++ b) = false) :
    resolve (a ++ '_' :: b) classes db = resolve (a ++ b) classes db := by
  have hloop : List.findSome? (tryClass db (a ++ '_' :: b))
      (sortClasses classes)
      = List.findSome? (tryClass db (a ++ b)) (sortClasses classes) :=
    findSome?_congr (fun c hc =>
      tryClass_underscore_eq hb (hlen c (mem_sortClasses.mp hc)))
  unfold resolve
  rw [hloop]
  cases hres : List.findSome? (tryClass db (a ++ b)) (sortClasses classes) with
  | some p =>
      cases p
      rfl
  | none =>
      rw [getStudent_eq_none (isValidUUID_false_of_underscore
          (List.mem_append.mpr (Or.inr (List.mem_cons_self _ _)))),
        getStudent_eq_none huuid]

/-- Witness for the amended C7: `"Grade1_2"` and `"Grade12"` resolve to
the same student of class "Grade 1". -/
theorem C7_amended_witness :
    resolve (str ("Grade1") ++ '_' :: str ("2")) [c7w1] [c7ws]
      = resolve (str ("Grade1") ++ str ("2")) [c7w1] [c7ws] :=
  C7_amended (str ("Grade1")) (str ("2")) [c7w1] [c7ws]
    ⟨c7w1, List.mem_singleton.mpr rfl, by decide⟩
    (by decide)
    (by
      intro c hc
      rcases List.mem_singleton.mp hc with rfl
      decide)
    (by decide)

/-! ### Claim C10 — ordering of `getStudents` -/

/-- C10 counterexample: a student whose `uniqueId` is exactly
`Number.MAX_SAFE_INTEGER` ties with the id-less students (the
comparator substitutes that sentinel for a missing id), so the id-less
`c10sB` sorts before the id-carrying `c10sA` by name — the claimed
"students with a uniqueId first" order is violated. -/
theorem C10_counterexample :
    getStudents [c10sA, c10sB] (str ("k")) = [c10sB, c10sA] ∧
      c10sB.uniqueId = none ∧
      c10sA.uniqueId = some maxSafeInteger ∧
      claimStudentOrder c10sB c10sA = false := by
  refine ⟨by decide, by decide, by decide, by decide⟩

/-! ### Case-equivalence of characters (claim C4) -/

theorem bool_eq_decide {b : Bool} {p : Prop} [Decidable p]
    (h : b = true ↔ p) : b = decide p := by
  by_cases hp : p
  · rw [decide_eq_true hp]
    exact h.mpr hp
  · rw [decide_eq_false hp]
    cases hb : b with
    | false => rfl
    | true => exact absurd (h.mp hb) hp

theorem char_beq_eq_decide (c k : Char) :
    (c == k) = decide (c.toNat = k.toNat) :=
  bool_eq_decide char_beq_iff_toNat

theorem charCaseEq_cases {c d : Char} (h : charCaseEq c d) :
    c = d ∨ (65 ≤ c.toNat ∧ c.toNat ≤ 90 ∧ d.toNat = c.toNat + 32) ∨
      (65 ≤ d.toNat ∧ d.toNat ≤ 90 ∧ c.toNat = d.toNat + 32) := by
  unfold charCaseEq at h
  have h' : (Char.toLower c).toNat = (Char.toLower d).toNat := by rw [h]
  rw [toLower_toNat, toLower_toNat] at h'
  by_cases hc : 65 ≤ c.toNat ∧ c.toNat ≤ 90
  · by_cases hd : 65 ≤ d.toNat ∧ d.toNat ≤ 90
    · rw [if_pos hc, if_pos hd] at h'
      exact Or.inl (char_eq_iff_toNat.mpr (by omega))
    · rw [if_pos hc, if_neg hd] at h'
      exact Or.inr (Or.inl ⟨hc.1, hc.2, by omega⟩)
  · by_cases hd : 65 ≤ d.toNat ∧ d.toNat ≤ 90
    · rw [if_neg hc, if_pos hd] at h'
      exact Or.inr (Or.inr ⟨hd.1, hd.2, by omega⟩)
    · rw [if_neg hc, if_neg hd] at h'
      exact Or.inl (char_eq_iff_toNat.mpr h')

theorem fixed_beq_congr {c d : Char} (h : charCaseEq c d) (k : Char)
    (hk1 : ¬ (65 ≤ k.toNat ∧ k.toNat ≤ 90))
    (hk2 : ¬ (97 ≤ k.toNat ∧ k.toNat ≤ 122)) :
    (c == k) = (d == k) := by
  rw [char_beq_eq_decide c k, char_beq_eq_decide d k]
  rcases charCaseEq_cases h with rfl | ⟨h1, h2, h3⟩ | ⟨h1, h2, h3⟩
  · rfl
  · exact decide_eq_decide.mpr (by omega)
  · exact decide_eq_decide.mpr (by omega)

theorem pair_beq_congr {c d : Char} (h : charCaseEq c d) (lo hi : Char)
    (hp : 97 ≤ lo.toNat ∧ lo.toNat ≤ 122 ∧ hi.toNat + 32 = lo.toNat) :
    ((c == lo) || (c == hi)) = ((d == lo) || (d == hi)) := by
  rw [char_beq_eq_decide c lo, char_beq_eq_decide c hi,
    char_beq_eq_decide d lo, char_beq_eq_decide d hi,
    show (decide (c.toNat = lo.toNat) || decide (c.toNat = hi.toNat))
        = decide (c.toNat = lo.toNat ∨ c.toNat = hi.toNat) from
      bool_eq_decide (by simp),
    show (decide (d.toNat = lo.toNat) || decide (d.toNat = hi.toNat))
        = decide (d.toNat = lo.toNat ∨ d.toNat = hi.toNat) from
      bool_eq_decide (by simp)]
  rcases charCaseEq_cases h with rfl | ⟨h1, h2, h3⟩ | ⟨h1, h2, h3⟩
  · rfl
  · exact decide_eq_decide.mpr (by omega)
  · exact decide_eq_decide.mpr (by omega)

theorem isDigit_eq_decide (c : Char) :
    c.isDigit = decide (48 ≤ c.toNat ∧ c.toNat ≤ 57) :=
  bool_eq_decide isDigit_iff

theorem isDigit_congr {c d : Char} (h : charCaseEq c d) :
    c.isDigit = d.isDigit := by
  rw [isDigit_eq_decide c, isDigit_eq_decide d]
  rcases charCaseEq_cases h with rfl | ⟨h1, h2, h3⟩ | ⟨h1, h2, h3⟩
  · rfl
  · exact decide_eq_decide.mpr (by omega)
  · exact decide_eq_decide.mpr (by omega)

theorem jsWhite_eq_false_of_range {c : Char}
    (h : 48 ≤ c.toNat ∧ c.toNat ≤ 122) : jsWhite c = false := by
  cases hw : jsWhite c with
  | false => rfl
  | true => exact absurd h (jsWhiteChars_not_alnum c (jsWhite_iff_mem.mp hw))

theorem jsWhite_congr {c d : Char} (h : charCaseEq c d) :
    jsWhite c = jsWhite d := by
  rcases charCaseEq_cases h with rfl | ⟨h1, h2, h3⟩ | ⟨h1, h2, h3⟩
  · rfl
  · rw [jsWhite_eq_false_of_range (by omega),
      jsWhite_eq_false_of_range (by omega)]
  · rw [jsWhite_eq_false_of_range (by omega),
      jsWhite_eq_false_of_range (by omega)]

theorem isHexDigit_eq_decide (c : Char) :
    isHexDigit c = decide ((48 ≤ c.toNat ∧ c.toNat ≤ 57) ∨
      (97 ≤ c.toNat ∧ c.toNat ≤ 102) ∨ (65 ≤ c.toNat ∧ c.toNat ≤ 70)) :=
  bool_eq_decide isHexDigit_iff

theorem isHexDigit_congr {c d : Char} (h : charCaseEq c d) :
    isHexDigit c = isHexDigit d := by
  rw [isHexDigit_eq_decide c, isHexDigit_eq_decide d]
  rcases charCaseEq_cases h with rfl | ⟨h1, h2, h3⟩ | ⟨h1, h2, h3⟩
  · rfl
  · exact decide_eq_decide.mpr (by omega)
  · exact decide_eq_decide.mpr (by omega)

theorem isOctDigit_iff {c : Char} :
    isOctDigit c = true ↔ 48 ≤ c.toNat ∧ c.toNat ≤ 55 := by
  simp [isOctDigit, Char.le_def, UInt32.le_def, BitVec.le_def, Char.toNat,
    UInt32.toNat]

theorem isOctDigit_eq_decide (c : Char) :
    isOctDigit c = decide (48 ≤ c.toNat ∧ c.toNat ≤ 55) :=
  bool_eq_decide isOctDigit_iff

theorem isOctDigit_congr {c d : Char} (h : charCaseEq c d) :
    isOctDigit c = isOctDigit d := by
  rw [isOctDigit_eq_decide c, isOctDigit_eq_decide d]
  rcases charCaseEq_cases h with rfl | ⟨h1, h2, h3⟩ | ⟨h1, h2, h3⟩
  · rfl
  · exact decide_eq_decide.mpr (by omega)
  · exact decide_eq_decide.mpr (by omega)

theorem isBinDigit_iff {c : Char} :
    isBinDigit c = true ↔ c.toNat = 48 ∨ c.toNat = 49 := by
  unfold isBinDigit
  rw [char_beq_eq_decide, char_beq_eq_decide]
  simp only [Bool.or_eq_true, decide_eq_true_eq]
  have h0 : '0'.toNat = 48 := rfl
  have h1 : '1'.toNat = 49 := rfl
  omega

theorem isBinDigit_eq_decide (c : Char) :
    isBinDigit c = decide (c.toNat = 48 ∨ c.toNat = 49) :=
  bool_eq_decide isBinDigit_iff

theorem isBinDigit_congr {c d : Char} (h : charCaseEq c d) :
    isBinDigit c = isBinDigit d := by
  rw [isBinDigit_eq_decide c, isBinDigit_eq_decide d]
  rcases charCaseEq_cases h with rfl | ⟨h1, h2, h3⟩ | ⟨h1, h2, h3⟩
  · rfl
  · exact decide_eq_decide.mpr (by omega)
  · exact decide_eq_decide.mpr (by omega)

theorem charCaseEq_eq_of_digit {c d : Char} (h : charCaseEq c d)
    (hc : c.isDigit = true) : c = d := by
  rcases isDigit_iff.mp hc with ⟨h1, h2⟩
  rcases charCaseEq_cases h with rfl | ⟨g1, g2, g3⟩ | ⟨g1, g2, g3⟩
  · rfl
  · omega
  · exact char_eq_iff_toNat.mpr (by omega)

theorem char_le_iff_toNat {a b : Char} : a ≤ b ↔ a.toNat ≤ b.toNat := by
  simp [Char.le_def, UInt32.le_def, BitVec.le_def, Char.toNat, UInt32.toNat]

theorem hexDigitVal_eq (c : Char) : hexDigitVal c =
    if 48 ≤ c.toNat ∧ c.toNat ≤ 57 then c.toNat - 48
    else if 97 ≤ c.toNat ∧ c.toNat ≤ 102 then c.toNat - 87
    else c.toNat - 55 := by
  unfold hexDigitVal
  by_cases h1 : 48 ≤ c.toNat ∧ c.toNat ≤ 57
  · rw [if_pos h1, if_pos (isDigit_iff.mpr h1)]
  · rw [if_neg h1,
      if_neg (show ¬ (c.isDigit = true) from fun hh => h1 (isDigit_iff.mp hh))]
    by_cases h2 : 97 ≤ c.toNat ∧ c.toNat ≤ 102
    · rw [if_pos h2, if_pos (show (decide ('a' ≤ c) && decide (c ≤ 'f'))
          = true from by
        rw [Bool.and_eq_true]
        have ha : 'a'.toNat = 97 := rfl
        have hf : 'f'.toNat = 102 := rfl
        exact ⟨decide_eq_true (char_le_iff_toNat.mpr (by omega)),
          decide_eq_true (char_le_iff_toNat.mpr (by omega))⟩)]
    · rw [if_neg h2, if_neg (show ¬ ((decide ('a' ≤ c) && decide (c ≤ 'f'))
          = true) from by
        rw [Bool.and_eq_true]
        have ha : 'a'.toNat = 97 := rfl
        have hf : 'f'.toNat = 102 := rfl
        rintro ⟨hu, hv⟩
        rw [decide_eq_true_eq, char_le_iff_toNat] at hu hv
        omega)]

theorem hexDigitVal_congr {c d : Char} (h : charCaseEq c d)
    (hc : isHexDigit c = true) : hexDigitVal c = hexDigitVal d := by
  rw [hexDigitVal_eq c, hexDigitVal_eq d]
  rcases charCaseEq_cases h with rfl | ⟨h1, h2, h3⟩ | ⟨h1, h2, h3⟩
  · rfl
  · rcases isHexDigit_iff.mp hc with hr | hr | hr
    · omega
    · omega
    · rw [if_neg (by omega), if_neg (by omega), if_neg (by omega),
        if_pos (by omega)]
      omega
  · rcases isHexDigit_iff.mp hc with hr | hr | hr
    · omega
    · rw [if_neg (by omega), if_pos (by omega), if_neg (by omega),
        if_neg (by omega)]
      omega
    · omega

/-! ### Case-equivalence of strings -/

theorem forall₂_caseEq_refl : ∀ (l : List Char), List.Forall₂ charCaseEq l l
  | [] => List.Forall₂.nil
  | _ :: t => List.Forall₂.cons rfl (forall₂_caseEq_refl t)

theorem forall₂_caseEq_symm {s t : List Char}
    (h : List.Forall₂ charCaseEq s t) : List.Forall₂ charCaseEq t s := by
  induction h with
  | nil => exact List.Forall₂.nil
  | cons hcd _ ih => exact List.Forall₂.cons hcd.symm ih

theorem forall₂_tail {R : Char → Char → Prop} {s t : List Char}
    (h : List.Forall₂ R s t) : List.Forall₂ R s.tail t.tail := by
  cases h with
  | nil => exact List.Forall₂.nil
  | cons _ htail => exact htail

theorem forall₂_takeWhile {R : Char → Char → Prop} {p q : Char → Bool}
    (hpq : ∀ c d, R c d → p c = q d) :
    ∀ {s t : List Char}, List.Forall₂ R s t →
      List.Forall₂ R (s.takeWhile p) (t.takeWhile q) := by
  intro s t h
  induction h with
  | nil => exact List.Forall₂.nil
  | cons hcd htail ih =>
      rename_i c d s1 t1
      simp only [List.takeWhile_cons, hpq c d hcd]
      cases hq : q d with
      | true => exact List.Forall₂.cons hcd ih
      | false => exact List.Forall₂.nil

theorem forall₂_dropWhile {R : Char → Char → Prop} {p q : Char → Bool}
    (hpq : ∀ c d, R c d → p c = q d) :
    ∀ {s t : List Char}, List.Forall₂ R s t →
      List.Forall₂ R (s.dropWhile p) (t.dropWhile q) := by
  intro s t h
  induction h with
  | nil => exact List.Forall₂.nil
  | cons hcd htail ih =>
      rename_i c d s1 t1
      simp only [List.dropWhile_cons, hpq c d hcd]
      cases hq : q d with
      | true => exact ih
      | false => exact List.Forall₂.cons hcd htail

theorem forall₂_isEmpty {R : Char → Char → Prop} {s t : List Char}
    (h : List.Forall₂ R s t) : s.isEmpty = t.isEmpty := by
  cases h <;> rfl

theorem forall₂_all_congr {α β : Type} {R : α → β → Prop} {p : α → Bool}
    {q : β → Bool} (hpq : ∀ a b, R a b → p a = q b) :
    ∀ {s : List α} {t : List β}, List.Forall₂ R s t → s.all p = t.all q := by
  intro s t h
  induction h with
  | nil => rfl
  | cons hcd htail ih =>
      rename_i a b s1 t1
      simp only [List.all_cons, hpq a b hcd, ih]

theorem head?_beq_congr {s t : List Char}
    (h : List.Forall₂ charCaseEq s t) {k : Char}
    (hk : ∀ c d, charCaseEq c d → (c == k) = (d == k)) :
    (s.head? == some k) = (t.head? == some k) := by
  cases h with
  | nil => rfl
  | cons hcd htail =>
      rename_i c d s1 t1
      simp only [List.head?_cons, some_beq_some]
      exact hk c d hcd

theorem lowerStr_congr {s t : List Char}
    (h : List.Forall₂ charCaseEq s t) : lowerStr s = lowerStr t := by
  induction h with
  | nil => rfl
  | cons hcd htail ih =>
      rename_i c d s1 t1
      unfold lowerStr at ih ⊢
      rw [List.map_cons, List.map_cons, ih,
        show Char.toLower c = Char.toLower d from hcd]

theorem forall₂_rev {R : Char → Char → Prop} {s t : List Char}
    (h : List.Forall₂ R s t) : List.Forall₂ R s.reverse t.reverse :=
  List.rel_reverse h

theorem jsTrim_rel {s t : List Char} (h : List.Forall₂ charCaseEq s t) :
    List.Forall₂ charCaseEq (jsTrim s) (jsTrim t) := by
  unfold jsTrim
  have hw : ∀ c d, charCaseEq c d → jsWhite c = jsWhite d :=
    fun c d hcd => jsWhite_congr hcd
  exact forall₂_rev (forall₂_dropWhile hw (forall₂_rev (forall₂_dropWhile hw h)))

/-! ### Case-behaviour of the numeric grammar -/

theorem stripSign1_rel {s t : List Char} (h : List.Forall₂ charCaseEq s t) :
    List.Forall₂ charCaseEq (stripSign1 s) (stripSign1 t) := by
  cases h with
  | nil => exact List.Forall₂.nil
  | cons hcd htail =>
      rename_i c d s1 t1
      unfold stripSign1
      simp only [List.head?_cons, some_beq_some, List.tail_cons]
      rw [fixed_beq_congr hcd '+' (by decide) (by decide),
        fixed_beq_congr hcd '-' (by decide) (by decide)]
      cases hq : ((d == '+') || (d == '-')) with
      | true => simp only [if_true]; exact htail
      | false =>
          simp only [Bool.false_eq_true, ite_false]
          exact List.Forall₂.cons hcd htail

theorem isExpOpt_congr {s t : List Char} (h : List.Forall₂ charCaseEq s t) :
    isExpOpt s = isExpOpt t := by
  cases h with
  | nil => rfl
  | cons hcd htail =>
      rename_i c d s1 t1
      unfold isExpOpt
      simp only [List.isEmpty_cons, List.head?_cons, some_beq_some,
        List.tail_cons, Bool.false_or]
      rw [pair_beq_congr hcd 'e' 'E' (by decide)]
      have hss := stripSign1_rel htail
      rw [forall₂_isEmpty hss,
        forall₂_all_congr (fun a b hab => isDigit_congr hab) hss]

theorem isMantissaExp_congr {s t : List Char}
    (h : List.Forall₂ charCaseEq s t) :
    isMantissaExp s = isMantissaExp t := by
  simp only [isMantissaExp]
  have hdig : ∀ c d, charCaseEq c d → Char.isDigit c = Char.isDigit d :=
    fun c d hcd => isDigit_congr hcd
  have htw := forall₂_takeWhile hdig h
  have hdw := forall₂_dropWhile hdig h
  rw [head?_beq_congr hdw
      (fun c d hcd => fixed_beq_congr hcd '.' (by decide) (by decide)),
    forall₂_isEmpty htw,
    forall₂_isEmpty (forall₂_takeWhile hdig (forall₂_tail hdw)),
    isExpOpt_congr (forall₂_dropWhile hdig (forall₂_tail hdw)),
    isExpOpt_congr hdw]

theorem head?_pair_beq_congr {s t : List Char}
    (h : List.Forall₂ charCaseEq s t) {lo hi : Char}
    (hp : 97 ≤ lo.toNat ∧ lo.toNat ≤ 122 ∧ hi.toNat + 32 = lo.toNat) :
    ((s.head? == some lo) || (s.head? == some hi))
      = ((t.head? == some lo) || (t.head? == some hi)) := by
  cases h with
  | nil => rfl
  | cons hcd htail =>
      rename_i c d s1 t1
      simp only [List.head?_cons, some_beq_some]
      exact pair_beq_congr hcd lo hi hp

theorem isRadixLiteral_congr {s t : List Char}
    (h : List.Forall₂ charCaseEq s t) {lo hi : Char} {dg : Char → Bool}
    (hp : 97 ≤ lo.toNat ∧ lo.toNat ≤ 122 ∧ hi.toNat + 32 = lo.toNat)
    (hdg : ∀ c d, charCaseEq c d → dg c = dg d) :
    isRadixLiteral lo hi dg s = isRadixLiteral lo hi dg t := by
  unfold isRadixLiteral
  rw [head?_beq_congr h
      (fun c d hcd => fixed_beq_congr hcd '0' (by decide) (by decide)),
    head?_pair_beq_congr (forall₂_tail h) hp,
    forall₂_isEmpty (forall₂_tail (forall₂_tail h)),
    forall₂_all_congr hdg (forall₂_tail (forall₂_tail h))]

theorem jsNumberNotNaN_eq_or {s t : List Char}
    (h : List.Forall₂ charCaseEq s t) :
    jsNumberNotNaN s = jsNumberNotNaN t ∨
      stripSign1 s = infinityChars ∨ stripSign1 t = infinityChars := by
  by_cases hs : stripSign1 s = infinityChars
  · exact Or.inr (Or.inl hs)
  by_cases ht : stripSign1 t = infinityChars
  · exact Or.inr (Or.inr ht)
  left
  simp only [jsNumberNotNaN, isStrDecimal]
  rw [forall₂_isEmpty h,
    show (stripSign1 s == infinityChars) = false from
      beq_eq_false_iff_ne.mpr hs,
    show (stripSign1 t == infinityChars) = false from
      beq_eq_false_iff_ne.mpr ht,
    isMantissaExp_congr (stripSign1_rel h),
    isRadixLiteral_congr h (by decide)
      (fun c d hcd => isHexDigit_congr hcd),
    isRadixLiteral_congr h (by decide)
      (fun c d hcd => isOctDigit_congr hcd),
    isRadixLiteral_congr h (by decide)
      (fun c d hcd => isBinDigit_congr hcd)]

theorem forall₂_digits_eq {s t : List Char}
    (h : List.Forall₂ charCaseEq s t)
    (hd : ∀ c ∈ s, c.isDigit = true) : s = t := by
  induction h with
  | nil => rfl
  | cons hcd htail ih =>
      rename_i c d s1 t1
      rw [charCaseEq_eq_of_digit hcd (hd c (List.mem_cons_self c s1)),
        ih (fun x hx => hd x (List.mem_cons_of_mem c hx))]

theorem hexVal_fold_congr : ∀ {s t : List Char},
    List.Forall₂ charCaseEq s t → (∀ c ∈ s, isHexDigit c = true) →
    ∀ a : Nat, s.foldl (fun a c => 16 * a + hexDigitVal c) a
      = t.foldl (fun a c => 16 * a + hexDigitVal c) a := by
  intro s t h
  induction h with
  | nil => intro _ _; rfl
  | cons hcd htail ih =>
      rename_i c d s1 t1
      intro hhex a
      simp only [List.foldl_cons]
      rw [hexDigitVal_congr hcd (hhex c (List.mem_cons_self c s1))]
      exact ih (fun x hx => hhex x (List.mem_cons_of_mem c hx)) _

theorem hexVal_congr {s t : List Char} (h : List.Forall₂ charCaseEq s t)
    (hhex : ∀ c ∈ s, isHexDigit c = true) : hexVal s = hexVal t :=
  hexVal_fold_congr h hhex 0

theorem jsParseIntCore_congr {s2 t2 : List Char}
    (h : List.Forall₂ charCaseEq s2 t2) :
    jsParseIntCore s2 = jsParseIntCore t2 := by
  simp only [jsParseIntCore]
  rw [head?_beq_congr h
      (fun c d hcd => fixed_beq_congr hcd '0' (by decide) (by decide)),
    head?_pair_beq_congr (forall₂_tail h) (by decide)]
  by_cases hcond : ((t2.head? == some '0') &&
      ((t2.tail.head? == some 'x') || (t2.tail.head? == some 'X'))) = true
  · rw [if_pos hcond, if_pos hcond]
    have hds := forall₂_takeWhile
      (fun c d hcd => isHexDigit_congr hcd) (forall₂_tail (forall₂_tail h))
    rw [forall₂_isEmpty hds]
    by_cases hemp :
        ((t2.tail.tail.takeWhile isHexDigit).isEmpty : Bool) = true
    · rw [if_pos hemp, if_pos hemp]
    · rw [if_neg hemp, if_neg hemp,
        hexVal_congr hds (fun c hc => List.mem_takeWhile_imp hc)]
  · rw [if_neg hcond, if_neg hcond]
    have hds := forall₂_takeWhile
      (fun c d hcd => isDigit_congr hcd) h
    rw [forall₂_digits_eq hds (fun c hc => List.mem_takeWhile_imp hc)]

theorem jsParseInt_congr {s t : List Char}
    (h : List.Forall₂ charCaseEq s t) : jsParseInt s = jsParseInt t := by
  simp only [jsParseInt]
  have hw : ∀ c d, charCaseEq c d → jsWhite c = jsWhite d :=
    fun c d hcd => jsWhite_congr hcd
  have h1 := forall₂_dropWhile hw h
  rw [head?_beq_congr h1
      (fun c d hcd => fixed_beq_congr hcd '-' (by decide) (by decide)),
    head?_beq_congr h1
      (fun c d hcd => fixed_beq_congr hcd '+' (by decide) (by decide))]
  by_cases hsign : (((t.dropWhile jsWhite).head? == some '-')
      || ((t.dropWhile jsWhite).head? == some '+')) = true
  · rw [if_pos hsign, if_pos hsign,
      jsParseIntCore_congr (forall₂_tail h1)]
  · rw [if_neg hsign, if_neg hsign, jsParseIntCore_congr h1]

theorem jsParseIntCore_infinity {c : Char} {t : List Char}
    (hc : c.toNat = 73 ∨ c.toNat = 105) :
    jsParseIntCore (c :: t) = none := by
  simp only [jsParseIntCore]
  have h48 : '0'.toNat = 48 := rfl
  have h0 : (c == '0') = false := by
    rw [char_beq_eq_decide]
    rcases hc with hc | hc <;> exact decide_eq_false (by omega)
  have hd : c.isDigit = false := by
    rw [isDigit_eq_decide]
    rcases hc with hc | hc <;> exact decide_eq_false (by omega)
  simp only [List.head?_cons, some_beq_some, h0, Bool.false_and,
    Bool.false_eq_true, ite_false, List.takeWhile_cons, hd,
    List.isEmpty_nil, if_true]

theorem head_infinity_variant {w : List Char}
    (hw : List.Forall₂ charCaseEq w infinityChars) :
    ∃ c t, w = c :: t ∧ (c.toNat = 73 ∨ c.toNat = 105) := by
  unfold infinityChars at hw
  cases hw with
  | cons hcd htail =>
      rename_i c t
      refine ⟨c, t, rfl, ?_⟩
      have hI : 'I'.toNat = 73 := rfl
      rcases charCaseEq_cases hcd with rfl | ⟨h1, h2, h3⟩ | ⟨h1, h2, h3⟩
      · left
        rfl
      · omega
      · omega

theorem jsParseInt_none_of_infinity {s : List Char}
    (hs : List.Forall₂ charCaseEq (stripSign1 s) infinityChars) :
    jsParseInt s = none := by
  obtain ⟨c, t, hct, hc⟩ := head_infinity_variant hs
  unfold stripSign1 at hct
  by_cases hcond : ((s.head? == some '+') || (s.head? == some '-')) = true
  · rw [if_pos hcond] at hct
    cases s with
    | nil => simp at hcond
    | cons c0 rest =>
        simp only [List.tail_cons] at hct
        subst hct
        simp only [List.head?_cons, some_beq_some, Bool.or_eq_true,
          beq_iff_eq] at hcond
        rcases hcond with rfl | rfl
        · simp only [jsParseInt,
            show List.dropWhile jsWhite ('+' :: c :: t) = '+' :: c :: t from by
              simp [List.dropWhile_cons,
                show jsWhite '+' = false from by decide],
            List.head?_cons, some_beq_some,
            show (('+' : Char) == '-') = false from by decide,
            show (('+' : Char) == '+') = true from by decide,
            Bool.false_or, Bool.or_true, if_true, List.tail_cons,
            jsParseIntCore_infinity hc, Option.map_none']
          rfl
        · simp only [jsParseInt,
            show List.dropWhile jsWhite ('-' :: c :: t) = '-' :: c :: t from by
              simp [List.dropWhile_cons,
                show jsWhite '-' = false from by decide],
            List.head?_cons, some_beq_some,
            show (('-' : Char) == '-') = true from by decide,
            Bool.true_or, if_true, List.tail_cons,
            jsParseIntCore_infinity hc, Option.map_none']
          rfl
  · rw [if_neg hcond] at hct
    subst hct
    simp only [List.head?_cons, some_beq_some, Bool.or_eq_true,
      not_or, Bool.not_eq_true] at hcond
    have hnw : jsWhite c = false :=
      jsWhite_eq_false_of_range (by rcases hc with hc | hc <;> omega)
    have hm : (c == '-') = false := by
      rw [char_beq_eq_decide]
      have h45 : '-'.toNat = 45 := rfl
      rcases hc with hc | hc <;> exact decide_eq_false (by omega)
    simp only [jsParseInt,
      show List.dropWhile jsWhite (c :: t) = c :: t from by
        simp [List.dropWhile_cons, hnw],
      List.head?_cons, some_beq_some, hm, hcond.1, Bool.or_self,
      Bool.false_eq_true, ite_false,
      jsParseIntCore_infinity hc, Option.map_none']
    rfl

theorem forall₂_enumFrom {s t : List Char}
    (h : List.Forall₂ charCaseEq s t) :
    ∀ k : Nat, List.Forall₂ (fun p q => p.1 = q.1 ∧ charCaseEq p.2 q.2)
      (s.enumFrom k) (t.enumFrom k) := by
  induction h with
  | nil => intro k; exact List.Forall₂.nil
  | cons hcd htail ih =>
      rename_i c d s1 t1
      intro k
      simp only [List.enumFrom]
      exact List.Forall₂.cons ⟨rfl, hcd⟩ (ih (k + 1))

theorem uuidCharOk_congr {c d : Char} (hcd : charCaseEq c d) (i : Nat) :
    uuidCharOk i c = uuidCharOk i d := by
  unfold uuidCharOk
  split
  · exact fixed_beq_congr hcd '-' (by decide) (by decide)
  · exact isHexDigit_congr hcd

theorem isValidUUID_congr {s t : List Char}
    (h : List.Forall₂ charCaseEq s t) :
    isValidUUID s = isValidUUID t := by
  unfold isValidUUID
  have he : ∀ (l : List Char), l.enum = l.enumFrom 0 := fun l => rfl
  have hall : ∀ (p q : Nat × Char), (p.1 = q.1 ∧ charCaseEq p.2 q.2) →
      uuidCharOk p.1 p.2 = uuidCharOk q.1 q.2 := by
    intro p q hpq
    rw [hpq.1]
    exact uuidCharOk_congr hpq.2 q.1
  rw [h.length_eq, he s, he t,
    forall₂_all_congr hall (forall₂_enumFrom h 0)]

theorem getStudent_congr (db : List Student) {r r' : List Char}
    (h : List.Forall₂ charCaseEq r r') :
    getStudent db r = getStudent db r' := by
  unfold getStudent getStudentQueried
  rw [isValidUUID_congr h, lowerStr_congr h]

theorem numericResult_congr (db : List Student) (cid : List Char)
    {r r' : List Char} (h : List.Forall₂ charCaseEq r r') :
    (if numericCond r then
        match jsParseInt r with
        | some n => (getStudents db cid).find? (fun s => s.uniqueId == some n)
        | none => none
      else none)
    = (if numericCond r' then
        match jsParseInt r' with
        | some n => (getStudents db cid).find? (fun s => s.uniqueId == some n)
        | none => none
      else none) := by
  rcases jsNumberNotNaN_eq_or h with hcong | hinf | hinf
  · have hcond : numericCond r = numericCond r' := by
      unfold numericCond
      rw [hcong, h.length_eq]
    rw [hcond, jsParseInt_congr h]
  · have hr1 : jsParseInt r = none := by
      apply jsParseInt_none_of_infinity
      rw [hinf]
      exact forall₂_caseEq_refl _
    have hr2 : jsParseInt r' = none := by
      apply jsParseInt_none_of_infinity
      have hss := stripSign1_rel h
      rw [hinf] at hss
      exact forall₂_caseEq_symm hss
    rw [hr1, hr2]
    simp only [ite_self]
  · have hr2 : jsParseInt r' = none := by
      apply jsParseInt_none_of_infinity
      rw [hinf]
      exact forall₂_caseEq_refl _
    have hr1 : jsParseInt r = none := by
      apply jsParseInt_none_of_infinity
      have hss := stripSign1_rel (forall₂_caseEq_symm h)
      rw [hinf] at hss
      exact forall₂_caseEq_symm hss
    rw [hr1, hr2]
    simp only [ite_self]

theorem branchBody_congr (db : List Student) (cid : List Char)
    {r r' : List Char} (hr : List.Forall₂ charCaseEq r r') :
    (match (if numericCond r then
        match jsParseInt r with
        | some n => (getStudents db cid).find? (fun s => s.uniqueId == some n)
        | none => none
      else none) with
     | some s => some s
     | none => if isValidUUID r then getStudent db r else none)
    = (match (if numericCond r' then
        match jsParseInt r' with
        | some n => (getStudents db cid).find? (fun s => s.uniqueId == some n)
        | none => none
      else none) with
     | some s => some s
     | none => if isValidUUID r' then getStudent db r' else none) := by
  rw [numericResult_congr db cid hr]
  cases hres : (if numericCond r' then
      match jsParseInt r' with
      | some n => (getStudents db cid).find? (fun s => s.uniqueId == some n)
      | none => none
    else none) with
  | some s => rfl
  | none => rw [isValidUUID_congr hr, getStudent_congr db hr]

theorem tryClassStudent_congr (db : List Student)
    {token token' : List Char}
    (h : List.Forall₂ charCaseEq token token') (cls : ClassGroup) :
    tryClassStudent db token cls = tryClassStudent db token' cls := by
  simp only [tryClassStudent]
  rw [lowerStr_congr h]
  by_cases hpre :
      List.isPrefixOf (cleanName cls.name) (lowerStr token') = true
  · rw [if_pos hpre, if_pos hpre]
    have hrem0 := List.forall₂_drop (cleanName cls.name).length h
    rw [head?_beq_congr hrem0
      (fun c d hcd => fixed_beq_congr hcd '_' (by decide) (by decide))]
    by_cases hus :
        ((token'.drop (cleanName cls.name).length).head? == some '_') = true
    · rw [if_pos hus, if_pos hus]
      exact branchBody_congr db cls.id (jsTrim_rel (forall₂_tail hrem0))
    · rw [if_neg hus, if_neg hus]
      exact branchBody_congr db cls.id (jsTrim_rel hrem0)
  · rw [if_neg hpre, if_neg hpre]

/-! ### Claim C4 — resolution is case-insensitive -/

/-- C4: two tokens that differ only in the case of their characters
resolve identically against every class directory and student table:
the prefix match is done on the lowercased token, the numeric guard and
`parseInt` treat the case-sensitive spellings of `Infinity` as equally
unresolvable, the UUID tests are case-insensitive, and the id lookup
compares UUIDs case-insensitively. -/
theorem C4_case_insensitive (token token' : List Char)
    (h : List.Forall₂ charCaseEq token token')
    (classes : List ClassGroup) (db : List Student) :
    resolve token classes db = resolve token' classes db := by
  have hloop : List.findSome? (tryClass db token) (sortClasses classes)
      = List.findSome? (tryClass db token') (sortClasses classes) :=
    findSome?_congr (fun c _ => by
      unfold tryClass
      rw [tryClassStudent_congr db h c])
  unfold resolve
  rw [hloop, getStudent_congr db h]

/-- Witness for C4: `"Grade1"` and `"GRADE1"` resolve identically. -/
theorem C4_case_insensitive_witness :
    List.Forall₂ charCaseEq (str ("Grade1")) (str ("GRADE1")) ∧
      resolve (str ("Grade1")) [c4wcls] [c4wst]
        = resolve (str ("GRADE1")) [c4wcls] [c4wst] := by
  have hf : List.Forall₂ charCaseEq (str ("Grade1")) (str ("GRADE1")) := by
    show List.Forall₂ charCaseEq
      ['G', 'r', 'a', 'd', 'e', '1'] ['G', 'R', 'A', 'D', 'E', '1']
    exact List.Forall₂.cons (by unfold charCaseEq; decide)
      (List.Forall₂.cons (by unfold charCaseEq; decide)
        (List.Forall₂.cons (by unfold charCaseEq; decide)
          (List.Forall₂.cons (by unfold charCaseEq; decide)
            (List.Forall₂.cons (by unfold charCaseEq; decide)
              (List.Forall₂.cons (by unfold charCaseEq; decide)
                List.Forall₂.nil)))))
  exact ⟨hf, C4_case_insensitive (str ("Grade1")) (str ("GRADE1")) hf
    [c4wcls] [c4wst]⟩

end Beta6